import Mathlib

set_option maxHeartbeats 1000000

namespace CodeCatalyst

/-! Shallow embedding of the AI-response normalization pipeline of the
Code-Catalyst repository (src/app/app.py, src/api/index.py, src/app/k.py).

The routes clean model output with
`re.sub(r'```json\s*|\s*```', '', text).strip()`, locate brackets with
`find` / `rfind`, slice, parse with `json.loads`, and fall back to fixed
values; the certificate route extracts fields with the regexes
`"valid":\s*(\d)` and `"skill":\s*"([^"]+)"`.  All of that is modelled
here over `List Char`, with machine-level behaviour (regex scanning
order, greedy `\s*`, Python truthiness, `str.strip`, `str.title`)
reproduced explicitly. -/

/-- Python `\s` / `str.strip` whitespace over ASCII: space, tab, newline,
carriage return, vertical tab, form feed. -/
def pyWs (c : Char) : Bool :=
  c = ' ' || c = '\t' || c = '\n' || c = '\r' || c = '\x0b' || c = '\x0c'

/-- The literal of the first regex alternative: three backticks then `json`. -/
def fenceJson : List Char := "```json".data

/-- Three backticks, the literal of the second regex alternative. -/
def ticks : List Char := "```".data

/-- Match of the alternative ```` ```json\s* ````  at the head of `l`;
`\s*` is greedy and nothing follows it, so it takes the maximal
whitespace run.  Returns the rest of the input after the match. -/
def matchA (l : List Char) : Option (List Char) :=
  if fenceJson.isPrefixOf l then some ((l.drop 7).dropWhile pyWs) else none

/-- Match of the alternative ```` \s*``` ```` at the head of `l`: backticks are
not whitespace, so the three backticks must sit exactly at the end of the
maximal whitespace run.  Returns the rest of the input after the match. -/
def matchB (l : List Char) : Option (List Char) :=
  if ticks.isPrefixOf (l.dropWhile pyWs) then some ((l.dropWhile pyWs).drop 3) else none

/-- `re.sub` scanner: at each position try alternative A then B (leftmost
match, alternation order); on a match emit nothing and continue after it,
otherwise emit the character.  Fuel-based so that it computes by `rfl`;
every step consumes at least one character, so `l.length` fuel suffices. -/
def subFencesAux : Nat → List Char → List Char
  | 0, l => l
  | _ + 1, [] => []
  | fuel + 1, c :: rest =>
    match matchA (c :: rest) with
    | some r => subFencesAux fuel r
    | none =>
      match matchB (c :: rest) with
      | some r => subFencesAux fuel r
      | none => c :: subFencesAux fuel rest

/-- `re.sub(r'```json\s*|\s*```', '', l)`. -/
def subFences (l : List Char) : List Char := subFencesAux l.length l

/-- Python `str.rstrip()` on char lists. -/
def rstripWs : List Char → List Char
  | [] => []
  | c :: r =>
    match rstripWs r with
    | [] => if pyWs c then [] else [c]
    | d :: t => c :: d :: t

/-- Python `str.strip()` on char lists. -/
def pyStrip (l : List Char) : List Char := rstripWs (l.dropWhile pyWs)

/-- The cleaned text every route computes:
`re.sub(r'```json\s*|\s*```', '', raw).strip()`. -/
def cleanFencesL (l : List Char) : List Char := pyStrip (subFences l)

/-- Python `str.find(c)`: index of the first occurrence, `none` for -1. -/
def firstIdxOf (c : Char) : List Char → Option Nat
  | [] => none
  | d :: r => if d = c then some 0 else (firstIdxOf c r).map Nat.succ

/-- Python `str.rfind(c)`: index of the last occurrence, `none` for -1. -/
def lastIdxOf (c : Char) (l : List Char) : Option Nat :=
  match firstIdxOf c l.reverse with
  | some k => some (l.length - 1 - k)
  | none => none

/-- Python slice `l[s : e+1]` (empty when `e + 1 ≤ s`). -/
def pySlice (l : List Char) (s e : Nat) : List Char :=
  (l.drop s).take (e + 1 - s)

/-- Literal `{`, kept out of character-literal position. -/
def lbrace : Char := '\x7b'

/-- Literal `}`. -/
def rbrace : Char := '\x7d'

/-- JSON values as produced by `json.loads`; numbers keep their source
lexeme (the claims only inspect key structure and concrete values). -/
inductive JValue where
  | null : JValue
  | bool : Bool → JValue
  | num : String → JValue
  | str : String → JValue
  | arr : List JValue → JValue
  | obj : List (String × JValue) → JValue

/-- JSON inter-token whitespace (space, tab, newline, carriage return). -/
def jsonWs (c : Char) : Bool :=
  c = ' ' || c = '\t' || c = '\n' || c = '\r'

def skipJsonWs (l : List Char) : List Char := l.dropWhile jsonWs

def hexVal (c : Char) : Option Nat :=
  if '0' ≤ c ∧ c ≤ '9' then some (c.toNat - 48)
  else if 'a' ≤ c ∧ c ≤ 'f' then some (c.toNat - 87)
  else if 'A' ≤ c ∧ c ≤ 'F' then some (c.toNat - 55)
  else none

def readHex4 : List Char → Option (Nat × List Char)
  | h1 :: h2 :: h3 :: h4 :: r =>
    match hexVal h1, hexVal h2, hexVal h3, hexVal h4 with
    | some a, some b, some c, some d => some (((a * 16 + b) * 16 + c) * 16 + d, r)
    | _, _, _, _ => none
  | _ => none

/-- A `\uXXXX` escape body, combining a high/low surrogate pair the way
Python's json module does.  A lone surrogate cannot inhabit `Char`; it is
mapped through `Char.ofNat` (an embedding limit no claim touches). -/
def readUEscape (l : List Char) : Option (Char × List Char) :=
  match readHex4 l with
  | none => none
  | some (v, r) =>
    if 55296 ≤ v ∧ v ≤ 56319 then
      match r with
      | b1 :: b2 :: rest2 =>
        if b1 = '\\' ∧ b2 = 'u' then
          match readHex4 rest2 with
          | some (w, r2) =>
            if 56320 ≤ w ∧ w ≤ 57343 then
              some (Char.ofNat (65536 + (v - 55296) * 1024 + (w - 56320)), r2)
            else some (Char.ofNat v, r)
          | none => some (Char.ofNat v, r)
        else some (Char.ofNat v, r)
      | _ => some (Char.ofNat v, r)
    else some (Char.ofNat v, r)

/-- JSON string body after the opening quote: decoded characters and the
rest after the closing quote.  Unescaped control characters are rejected
(Python strict mode). -/
def parseStrBody : Nat → List Char → Option (List Char × List Char)
  | 0, _ => none
  | _ + 1, [] => none
  | fuel + 1, c :: r =>
    if c = '"' then some ([], r)
    else if c = '\\' then
      match r with
      | [] => none
      | e :: r2 =>
        if e = '"' || e = '\\' || e = '/' then
          (parseStrBody fuel r2).map (fun p => (e :: p.1, p.2))
        else if e = 'b' then (parseStrBody fuel r2).map (fun p => ('\x08' :: p.1, p.2))
        else if e = 'f' then (parseStrBody fuel r2).map (fun p => ('\x0c' :: p.1, p.2))
        else if e = 'n' then (parseStrBody fuel r2).map (fun p => ('\n' :: p.1, p.2))
        else if e = 'r' then (parseStrBody fuel r2).map (fun p => ('\r' :: p.1, p.2))
        else if e = 't' then (parseStrBody fuel r2).map (fun p => ('\t' :: p.1, p.2))
        else if e = 'u' then
          match readUEscape r2 with
          | some (ch, rr) => (parseStrBody fuel rr).map (fun p => (ch :: p.1, p.2))
          | none => none
        else none
    else if c.toNat < 32 then none
    else (parseStrBody fuel r).map (fun p => (c :: p.1, p.2))

/-- One or more decimal digits. -/
def digits1 (l : List Char) : Option (List Char × List Char) :=
  let d := l.takeWhile Char.isDigit
  if d.isEmpty then none else some (d, l.drop d.length)

def parseExpPart (acc : List Char) (l : List Char) : Option (List Char × List Char) :=
  match l with
  | c :: r =>
    if c = 'e' ∨ c = 'E' then
      match r with
      | d :: rr =>
        if d = '+' ∨ d = '-' then
          match digits1 rr with
          | some (ds, rest) => some (acc ++ [c] ++ [d] ++ ds, rest)
          | none => none
        else
          match digits1 r with
          | some (ds, rest) => some (acc ++ [c] ++ ds, rest)
          | none => none
      | [] => none
    else some (acc, l)
  | [] => some (acc, l)

def parseFracExp (acc : List Char) (l : List Char) : Option (List Char × List Char) :=
  match l with
  | c :: r =>
    if c = '.' then
      match digits1 r with
      | some (ds, rest) => parseExpPart (acc ++ ['.'] ++ ds) rest
      | none => none
    else parseExpPart acc l
  | [] => some (acc, l)

/-- A JSON number lexeme: `-? (0 | [1-9][0-9]*) (. [0-9]+)? ([eE][+-]?[0-9]+)?`. -/
def parseNumber (l : List Char) : Option (List Char × List Char) :=
  let signed : List Char × List Char :=
    match l with
    | c :: r => if c = '-' then (['-'], r) else ([], l)
    | [] => ([], l)
  match signed.2 with
  | c :: r =>
    if c = '0' then parseFracExp (signed.1 ++ ['0']) r
    else if c.isDigit then
      match digits1 signed.2 with
      | some (ds, rest) => parseFracExp (signed.1 ++ ds) rest
      | none => none
    else none
  | [] => none

mutual

/-- One JSON value starting at the head of `l` (whitespace already
skipped), as `json.loads` parses it. -/
def parseVal : Nat → List Char → Option (JValue × List Char)
  | 0, _ => none
  | fuel + 1, l =>
    match l with
    | [] => none
    | c :: r =>
      if c = lbrace then
        match skipJsonWs r with
        | d :: rr => if d = rbrace then some (JValue.obj [], rr) else parseObjLoop fuel [] (d :: rr)
        | [] => none
      else if c = '[' then
        match skipJsonWs r with
        | d :: rr => if d = ']' then some (JValue.arr [], rr) else parseArrLoop fuel [] (d :: rr)
        | [] => none
      else if c = '"' then
        match parseStrBody (r.length + 1) r with
        | some (s, rest) => some (JValue.str (String.mk s), rest)
        | none => none
      else if c = 't' then
        if ("rue".data).isPrefixOf r then some (JValue.bool true, r.drop 3) else none
      else if c = 'f' then
        if ("alse".data).isPrefixOf r then some (JValue.bool false, r.drop 4) else none
      else if c = 'n' then
        if ("ull".data).isPrefixOf r then some (JValue.null, r.drop 3) else none
      else if c = 'N' then
        if ("aN".data).isPrefixOf r then some (JValue.num ("NaN"), r.drop 2) else none
      else if c = 'I' then
        if ("nfinity".data).isPrefixOf r then some (JValue.num ("Infinity"), r.drop 7) else none
      else if c = '-' ∧ ("Infinity".data).isPrefixOf r then
        some (JValue.num ("-Infinity"), r.drop 8)
      else if c = '-' ∨ c.isDigit then
        match parseNumber l with
        | some (lex, rest) => some (JValue.num (String.mk lex), rest)
        | none => none
      else none

/-- Elements of a non-empty JSON array, comma separated, up to `]`. -/
def parseArrLoop : Nat → List JValue → List Char → Option (JValue × List Char)
  | 0, _, _ => none
  | fuel + 1, acc, l =>
    match parseVal fuel (skipJsonWs l) with
    | none => none
    | some (v, rest) =>
      match skipJsonWs rest with
      | d :: r2 =>
        if d = ',' then parseArrLoop fuel (acc ++ [v]) r2
        else if d = ']' then some (JValue.arr (acc ++ [v]), r2)
        else none
      | [] => none

/-- Members of a non-empty JSON object, comma separated, up to `}`. -/
def parseObjLoop : Nat → List (String × JValue) → List Char → Option (JValue × List Char)
  | 0, _, _ => none
  | fuel + 1, acc, l =>
    match skipJsonWs l with
    | c :: r =>
      if c = '"' then
        match parseStrBody (r.length + 1) r with
        | none => none
        | some (k, rest) =>
          match skipJsonWs rest with
          | d :: r2 =>
            if d = ':' then
              match parseVal fuel (skipJsonWs r2) with
              | none => none
              | some (v, rest2) =>
                match skipJsonWs rest2 with
                | e :: r3 =>
                  if e = ',' then parseObjLoop fuel (acc ++ [(String.mk k, v)]) r3
                  else if e = rbrace then some (JValue.obj (acc ++ [(String.mk k, v)]), r3)
                  else none
                | [] => none
            else none
          | [] => none
      else none
    | [] => none

end

/-- `json.loads`: parse one value, allow surrounding whitespace, reject
anything (`Extra data`) after it. -/
def jsonLoads (l : List Char) : Except String JValue :=
  match parseVal (l.length + 1) (skipJsonWs l) with
  | some (v, rest) =>
    if (skipJsonWs rest).isEmpty then Except.ok v else Except.error ("Extra data")
  | none => Except.error ("JSONDecodeError")

/-- A Python `try: x except: handler` around an expression. -/
def pyTry {α : Type} (x : Except String α) (handler : Except String α) : Except String α :=
  match x with
  | Except.ok v => Except.ok v
  | Except.error _ => handler

/-- Python truthiness of a JSON value (`if not top_roles_data`). -/
def pyFalsy : JValue → Bool
  | JValue.null => true
  | JValue.bool b => !b
  | JValue.num lex =>
    let ds := lex.data.takeWhile (fun c => ¬ (c = 'e' ∨ c = 'E')) |>.filter Char.isDigit
    !ds.isEmpty && ds.all (fun c => c = '0')
  | JValue.str s => s.data.isEmpty
  | JValue.arr xs => xs.isEmpty
  | JValue.obj kvs => kvs.isEmpty

/-- The hard-coded role fallback of `upload_resume` (app.py:431-435,
index.py:283-287). -/
def fallbackRolesJ : JValue :=
  JValue.arr
    [JValue.obj [("role", JValue.str ("SDE (Fallback)")), ("score", JValue.num ("0"))],
     JValue.obj [("role", JValue.str ("Full Stack (Fallback)")), ("score", JValue.num ("0"))],
     JValue.obj [("role", JValue.str ("AI/ML (Fallback)")), ("score", JValue.num ("0"))]]

/-- The guarded parsing block of `upload_resume` (app.py:414-427): clean
the fences, find the first `[` and last `]`, slice inclusively and
`json.loads` the slice; when a bracket is missing `top_roles_data`
keeps its initial `[]`. -/
def upload_resume_parse (raw : String) : Except String JValue :=
  match firstIdxOf '[' (cleanFencesL raw.data), lastIdxOf ']' (cleanFencesL raw.data) with
  | some s, some e => jsonLoads (pySlice (cleanFencesL raw.data) s e)
  | _, _ => Except.ok (JValue.arr [])

/-- The full `upload_resume` normalization (app.py:413-435): the parse
block under `try/except` (a failure keeps `top_roles_data = []`),
then the falsiness-guarded fallback substitution. -/
def upload_resume_normalize (raw : String) : Except String JValue := do
  let parsed ← pyTry (upload_resume_parse raw) (Except.ok (JValue.arr []))
  Except.ok (if pyFalsy parsed then fallbackRolesJ else parsed)

/-- The `market` route normalization (app.py:911-925): clean, find the
first `{` and last `}`, parse the slice; any failure or missing bracket
leaves the analysis `None`. -/
def market_normalize (raw : String) : Except String (Option JValue) :=
  pyTry
    (match firstIdxOf lbrace (cleanFencesL raw.data), lastIdxOf rbrace (cleanFencesL raw.data) with
     | some s, some e =>
       match jsonLoads (pySlice (cleanFencesL raw.data) s e) with
       | Except.ok v => Except.ok (some v)
       | Except.error err => Except.error err
     | _, _ => Except.ok none)
    (Except.ok none)

/-- `isinstance(suggestion_data, dict)`. -/
def isDictJ : JValue → Bool
  | JValue.obj _ => true
  | _ => false

/-- Outcome of the `leetcode_analysis` parse (app.py:643-657): either the
parsed JSON suggestion or, on failure, the raw response text stored in
`session['leetcode_suggestion']`. -/
inductive LeetOut where
  | json : JValue → LeetOut
  | raw : String → LeetOut

/-- The `leetcode_analysis` normalization (app.py:643-657): clean the
fences, `json.loads` the whole cleaned text (no bracket slicing), raise
`ValueError` when the result is not a dict; any exception falls back to
storing the raw response text. -/
def leetcode_analysis_normalize (rawResp : String) : Except String LeetOut :=
  pyTry
    (match jsonLoads (cleanFencesL rawResp.data) with
     | Except.ok v =>
       if isDictJ v then Except.ok (LeetOut.json v) else Except.error ("ValueError")
     | Except.error e => Except.error e)
    (Except.ok (LeetOut.raw rawResp))

/-- The literal `"valid":` of the rescue regex `"valid":\s*(\d)`. -/
def litValid : List Char := "\"valid\":".data

/-- The literal `"skill":` of the rescue regex `"skill":\s*"([^"]+)"`. -/
def litSkill : List Char := "\"skill\":".data

/-- Attempt of `"valid":\s*(\d)` at the head of `l`: the digit must sit
at the end of the maximal whitespace run (backtracking cannot help since
a digit is not whitespace). -/
def tryValid (l : List Char) : Option Char :=
  if litValid.isPrefixOf l then
    match (l.drop 8).dropWhile pyWs with
    | c :: _ => if c.isDigit then some c else none
    | [] => none
  else none

/-- `re.search(r'"valid":\s*(\d)', l)`: leftmost successful attempt. -/
def searchValid : List Char → Option Char
  | [] => none
  | c :: r =>
    match tryValid (c :: r) with
    | some d => some d
    | none => searchValid r

/-- Attempt of `"skill":\s*"([^"]+)"` at the head of `l`: after the
literal and the whitespace run, an opening quote, a non-empty capture of
non-quote characters, and a closing quote. -/
def notQuote (x : Char) : Bool := ¬ x = '"'

def trySkill (l : List Char) : Option (List Char) :=
  if litSkill.isPrefixOf l then
    match (l.drop 8).dropWhile pyWs with
    | c :: rest =>
      if c = '"' then
        if (rest.takeWhile notQuote).isEmpty then none
        else if (rest.drop (rest.takeWhile notQuote).length).head? = some '"'
             then some (rest.takeWhile notQuote) else none
      else none
    | [] => none
  else none

/-- `re.search(r'"skill":\s*"([^"]+)"', l)`: leftmost successful attempt. -/
def searchSkill : List Char → Option (List Char)
  | [] => none
  | c :: r =>
    match trySkill (c :: r) with
    | some cap => some cap
    | none => searchSkill r

def isAsciiAlpha (c : Char) : Bool :=
  ('a' ≤ c ∧ c ≤ 'z') ∨ ('A' ≤ c ∧ c ≤ 'Z')

/-- The lower/upper case pairs of the ASCII alphabet. -/
def caseTable : List (Char × Char) :=
  List.zip (("abcdefghijklmnopqrstuvwxyz").data) (("ABCDEFGHIJKLMNOPQRSTUVWXYZ").data)

def asciiUpper (c : Char) : Char :=
  match caseTable.find? (fun p => p.1 = c) with
  | some p => p.2
  | none => c

def asciiLower (c : Char) : Char :=
  match caseTable.find? (fun p => p.2 = c) with
  | some p => p.1
  | none => c

/-- Python `str.title()` over ASCII: a letter is uppercased when the
previous character is not a letter, lowercased otherwise. -/
def pyTitleGo : Bool → List Char → List Char
  | _, [] => []
  | prevAlpha, c :: r =>
    (if isAsciiAlpha c then (if prevAlpha then asciiLower c else asciiUpper c) else c)
      :: pyTitleGo (isAsciiAlpha c) r

def pyTitle (l : List Char) : List Char := pyTitleGo false l

/-- `int()` of a captured digit character. -/
def pyIntOfDigit (c : Char) : Except String Int :=
  if c.isDigit then Except.ok ((c.toNat : Int) - 48) else Except.error ("ValueError")

/-- The skill name of the certificate path: the capture of the first
`"skill":\s*"([^"]+)"` match, stripped and title-cased, or the default
`"Unknown Skill"` when there is no match (app.py:552-556). -/
def certSkillStr (raw : String) : String :=
  match searchSkill (cleanFencesL raw.data) with
  | some cap => String.mk (pyTitle (pyStrip cap))
  | none => "Unknown Skill"

/-- The `upload_certificate` parsing (app.py:545-556): clean the fences,
then run the two field regexes directly — `is_valid` from the first
`"valid":\s*(\d)` match (0 when absent) and the skill from
`certSkillStr`.  No strict `json.loads` ever runs on this path. -/
def upload_certificate_normalize (raw : String) : Except String (Int × String) :=
  match searchValid (cleanFencesL raw.data) with
  | some d =>
    match pyIntOfDigit d with
    | Except.ok v => Except.ok (v, certSkillStr raw)
    | Except.error e => Except.error e
  | none => Except.ok (0, certSkillStr raw)

/-- The fenced wrapping of the fence-stripping claim: ```` ```json ````
on its own line before the text and ```` ``` ```` after it. -/
def wrapJson (t : String) : String := "```json\n" ++ t ++ "\n```"

/-- Python `s.lower()` over ASCII. -/
def pyLowerStr (s : String) : String := String.mk (s.data.map asciiLower)

/-- `needle` occurs as a contiguous sublist of `haystack`. -/
def listContains (needle : List Char) : List Char → Bool
  | [] => needle.isEmpty
  | c :: r => needle.isPrefixOf (c :: r) || listContains needle r

/-- Python `needle in haystack` on strings. -/
def pyInStr (needle haystack : String) : Bool :=
  listContains needle.data haystack.data

/-- `PROJECT_DOMAIN_RULES` of app.py:972-978, in declaration order. -/
def PROJECT_DOMAIN_RULES : List (String × List String) :=
  [("software", ["python", "java", "javascript", "react", "node", "flask", "django", "c++", "golang"]),
   ("data", ["machine learning", "ml", "pandas", "numpy", "pytorch", "tensorflow", "data analysis"]),
   ("hardware", ["arduino", "esp32", "embedded", "iot", "circuit", "pcb", "verilog", "fpga"]),
   ("web", ["html", "css", "react", "frontend", "backend", "full stack"]),
   ("core", ["matlab", "ansys", "solidworks", "cad", "simulation", "thermodynamics", "mechanics"])]

/-- `PROJECT_DOMAIN_RULES` of k.py:25-30, in declaration order. -/
def PROJECT_DOMAIN_RULES_K : List (String × List String) :=
  [("software", ["python", "java", "javascript", "react", "node", "flask", "django"]),
   ("data", ["machine learning", "ml", "pandas", "numpy"]),
   ("hardware", ["arduino", "esp32", "embedded", "iot"]),
   ("web", ["html", "css", "react", "frontend", "backend"])]

/-- The `text` both classifiers score:
`(description + " " + " ".join(languages)).lower()`. -/
def classifyText (description : String) (languages : List String) : String :=
  pyLowerStr (description ++ " " ++ String.intercalate (" ") languages)

/-- One domain's score: the number of its keywords occurring in the text
(`scores[domain] += 1` once per keyword found). -/
def domainScore (text : String) (kws : List String) : Nat :=
  (kws.filter (fun k => pyInStr k text)).length

/-- The scores dict, in rule-table declaration order. -/
def scoreTable (rules : List (String × List String)) (text : String) : List (String × Nat) :=
  rules.map (fun p => (p.1, domainScore text p.2))

/-- Python `max(scores, key=scores.get)` over an insertion-ordered dict:
the first key attaining the maximum. -/
def pyMaxByFirst : List (String × Nat) → String
  | [] => ""
  | p :: rest => (rest.foldl (fun acc q => if q.2 > acc.2 then q else acc) p).1

/-- `classify_project` of app.py:1019-1029: score the rule table, return
`"unknown"` when every score is zero, else the argmax. -/
def classify_project (description : String) (languages : List String) : String :=
  if (scoreTable PROJECT_DOMAIN_RULES (classifyText description languages)).all
      (fun p => p.2 = 0)
  then "unknown"
  else pyMaxByFirst (scoreTable PROJECT_DOMAIN_RULES (classifyText description languages))

/-- `classify_project` of k.py:73-82: same scoring over the smaller rule
table, no all-zero guard. -/
def classify_project_k (description : String) (languages : List String) : String :=
  pyMaxByFirst (scoreTable PROJECT_DOMAIN_RULES_K (classifyText description languages))

/-! ### Basic facts about list prefixes and the fence scanner -/

theorem isPrefixOf_iff_exists : ∀ (p l : List Char), (p.isPrefixOf l = true ↔ ∃ t, l = p ++ t)
  | [], l => by simp [List.isPrefixOf]
  | a :: p, [] => by simp [List.isPrefixOf]
  | a :: p, b :: l => by
    simp only [List.isPrefixOf, Bool.and_eq_true, beq_iff_eq, List.cons_append, List.cons.injEq]
    rw [isPrefixOf_iff_exists p l]
    exact ⟨fun h => ⟨h.2.choose, h.1.symm, h.2.choose_spec⟩,
           fun ⟨t, h1, h2⟩ => ⟨h1.symm, t, h2⟩⟩

theorem isPrefixOf_length {p l : List Char} (h : p.isPrefixOf l = true) :
    p.length ≤ l.length := by
  obtain ⟨t, rfl⟩ := (isPrefixOf_iff_exists p l).mp h
  simp

theorem length_dropWhile_le (p : Char → Bool) : ∀ l : List Char,
    (l.dropWhile p).length ≤ l.length
  | [] => le_rfl
  | c :: r => by
    by_cases h : p c
    · simpa [List.dropWhile, h] using Nat.le_succ_of_le (length_dropWhile_le p r)
    · simp [List.dropWhile, h]

theorem matchA_some_le {l r : List Char} (h : matchA l = some r) : r.length + 7 ≤ l.length := by
  unfold matchA at h
  split at h
  · rename_i hp
    have h7 : (7 : Nat) ≤ l.length := isPrefixOf_length hp
    have h2 : ((l.drop 7).dropWhile pyWs).length ≤ l.length - 7 := by
      calc ((l.drop 7).dropWhile pyWs).length ≤ (l.drop 7).length :=
            length_dropWhile_le pyWs (l.drop 7)
        _ = l.length - 7 := by simp
    cases h
    omega
  · exact absurd h (by simp)

theorem matchB_some_le {l r : List Char} (h : matchB l = some r) : r.length + 3 ≤ l.length := by
  unfold matchB at h
  split at h
  · rename_i hp
    have h3 : (3 : Nat) ≤ (l.dropWhile pyWs).length := isPrefixOf_length hp
    have h2 : (l.dropWhile pyWs).length ≤ l.length := length_dropWhile_le pyWs l
    cases h
    simp only [List.length_drop]
    omega
  · exact absurd h (by simp)

theorem subFencesAux_congr : ∀ (n : Nat) (l : List Char) (f g : Nat),
    l.length ≤ n → l.length ≤ f → l.length ≤ g →
    subFencesAux f l = subFencesAux g l := by
  intro n
  induction n with
  | zero =>
    intro l f g h _ _
    have hl : l = [] := List.eq_nil_of_length_eq_zero (Nat.le_zero.mp h)
    subst hl
    cases f <;> cases g <;> rfl
  | succ n ih =>
    intro l f g hn hf hg
    cases l with
    | nil => cases f <;> cases g <;> rfl
    | cons c rest =>
      have hlen : (c :: rest).length = rest.length + 1 := rfl
      obtain ⟨f', rfl⟩ : ∃ f', f = f' + 1 := ⟨f - 1, by simp at hf; omega⟩
      obtain ⟨g', rfl⟩ : ∃ g', g = g' + 1 := ⟨g - 1, by simp at hg; omega⟩
      show subFencesAux (f' + 1) (c :: rest) = subFencesAux (g' + 1) (c :: rest)
      unfold subFencesAux
      cases hA : matchA (c :: rest) with
      | some r =>
        simp only [hA]
        have hr := matchA_some_le hA
        simp only [hlen] at hn hf hg
        exact ih r f' g' (by omega) (by omega) (by omega)
      | none =>
        cases hB : matchB (c :: rest) with
        | some r =>
          simp only [hA, hB]
          have hr := matchB_some_le hB
          simp only [hlen] at hn hf hg
          exact ih r f' g' (by omega) (by omega) (by omega)
        | none =>
          simp only [hA, hB]
          simp only [hlen] at hn hf hg
          exact congrArg (c :: ·) (ih rest f' g' (by omega) (by omega) (by omega))

theorem subFences_eq_aux {f : Nat} {l : List Char} (h : l.length ≤ f) :
    subFences l = subFencesAux f l :=
  subFencesAux_congr l.length l l.length f le_rfl le_rfl h

theorem subFences_matchA {l r : List Char} (h : matchA l = some r) :
    subFences l = subFences r := by
  cases l with
  | nil =>
    rw [show matchA [] = none from rfl] at h
    exact Option.noConfusion h
  | cons c rest =>
    have h1 : subFences (c :: rest) = subFencesAux (rest.length + 1) (c :: rest) := rfl
    rw [h1]
    unfold subFencesAux
    rw [h]
    have hr := matchA_some_le h
    exact (subFences_eq_aux (by simp at hr ⊢; omega)).symm

theorem subFences_matchB {l r : List Char} (hA : matchA l = none) (hB : matchB l = some r) :
    subFences l = subFences r := by
  cases l with
  | nil =>
    rw [show matchB [] = none from rfl] at hB
    exact Option.noConfusion hB
  | cons c rest =>
    have h1 : subFences (c :: rest) = subFencesAux (rest.length + 1) (c :: rest) := rfl
    rw [h1]
    unfold subFencesAux
    rw [hA, hB]
    have hr := matchB_some_le hB
    exact (subFences_eq_aux (by simp at hr ⊢; omega)).symm

theorem subFences_emit {c : Char} {rest : List Char}
    (hA : matchA (c :: rest) = none) (hB : matchB (c :: rest) = none) :
    subFences (c :: rest) = c :: subFences rest := by
  have h1 : subFences (c :: rest) = subFencesAux (rest.length + 1) (c :: rest) := rfl
  rw [h1]
  unfold subFencesAux
  rw [hA, hB]
  rfl

/-! ### Spec-side shape validity (the comparison side of the refinement
claims; these follow the specification's words, not the code) -/

/-- Following the spec: an element of the top-roles array is valid when
it is an object containing the element-level required keys `role` and
`score`. -/
def specRoleElemOk : JValue → Bool
  | JValue.obj kvs => kvs.any (fun p => p.1 = "role") && kvs.any (fun p => p.1 = "score")
  | _ => false

/-- Following the spec: a normalized top-roles value is structurally
valid when it is an array whose every element is valid. -/
def specShapeValidRoles : JValue → Bool
  | JValue.arr xs => xs.all specRoleElemOk
  | _ => false

/-- Distinguishes the raw-text outcome of the leetcode normalization. -/
def isRawOut : Except String LeetOut → Bool
  | Except.ok (LeetOut.raw _) => true
  | _ => false

/-! ### Claim theorems on concrete inputs -/

/-- Claim C8 (confirmed): on the spec's bracket-extraction example, the
substring from the first `[` through the last `]` is sliced out,
strictly parsed, and the surrounding prose is discarded, giving `Ok` of
the single-element role/score array. -/
theorem c8_bracket_extraction :
    upload_resume_normalize ("Here is your answer: [\x7b\"role\":\"Backend\",\"score\":90\x7d] Hope that helps!")
      = Except.ok (JValue.arr [JValue.obj [("role", JValue.str ("Backend")), ("score", JValue.num ("90"))]]) := rfl

/-- Claim C5 (confirmed): normalizing `{"valid":1}` against the
certificate shape yields the valid flag 1 and the missing `skill` key
filled with the documented default `"Unknown Skill"`; the missing key is
not a failure. -/
theorem c5_missing_key_default :
    upload_certificate_normalize ("\x7b\"valid\":1\x7d") = Except.ok (1, "Unknown Skill") := rfl

/-- Claim C3 (code bug): on `{"valid": 12}` the certificate path returns
the flag 1 — the rescue regex `"valid":\s*(\d)` grabs the first digit of
`12` — although strict JSON parsing of the same cleaned text succeeds
with the value 12 (which `is_valid == 1` would reject).  The regex tier
runs unconditionally; no strict parse is ever attempted on this path,
contradicting the code's own comment (`Simple fallback regex parser if
strict JSON fails`). -/
theorem c3_regex_runs_instead_of_parse :
    upload_certificate_normalize ("\x7b\"valid\": 12\x7d") = Except.ok (1, "Unknown Skill")
    ∧ jsonLoads (cleanFencesL (("\x7b\"valid\": 12\x7d").data))
        = Except.ok (JValue.obj [("valid", JValue.num ("12"))]) :=
  ⟨rfl, rfl⟩

/-- Claim C1 fails as stated: normalizing `[42]` delivers `Ok [42]`, a
parsed but structurally invalid value — neither valid against the
role/score shape nor the declared fallback. -/
theorem c1_counterexample :
    upload_resume_normalize ("[42]") = Except.ok (JValue.arr [JValue.num ("42")])
    ∧ specShapeValidRoles (JValue.arr [JValue.num ("42")]) = false
    ∧ JValue.arr [JValue.num ("42")] ≠ fallbackRolesJ := by
  refine ⟨rfl, rfl, fun h => ?_⟩
  exact absurd (congrArg specShapeValidRoles h) (by decide)

/-- Claim C4 fails as stated: normalizing `[{"x":1}]`, whose single
element lacks the role/score keys, returns the element untouched — it is
neither dropped (which would leave no valid element, so the claim
demands the fallback) nor replaced by the fallback. -/
theorem c4_counterexample :
    upload_resume_normalize ("[\x7b\"x\":1\x7d]")
      = Except.ok (JValue.arr [JValue.obj [("x", JValue.num ("1"))]])
    ∧ specRoleElemOk (JValue.obj [("x", JValue.num ("1"))]) = false
    ∧ JValue.arr [JValue.obj [("x", JValue.num ("1"))]] ≠ fallbackRolesJ := by
  refine ⟨rfl, rfl, fun h => ?_⟩
  exact absurd (congrArg specShapeValidRoles h) (by decide)

/-- Claim C6 fails as stated for the shapes parsed from the whole
cleaned text: for this text, which begins with whitespace and a
`` ```json `` marker, the leetcode-suggestions normalization succeeds on
the fence-wrapped input but falls back to the raw text on the unwrapped
input, because stripping the fences of the unwrapped text leaves a stray
`json` prefix before the object. -/
theorem c6_counterexample :
    leetcode_analysis_normalize (wrapJson (" ```json \x7b\"a\": 1\x7d"))
      = Except.ok (LeetOut.json (JValue.obj [("a", JValue.num ("1"))]))
    ∧ leetcode_analysis_normalize (" ```json \x7b\"a\": 1\x7d")
      = Except.ok (LeetOut.raw (" ```json \x7b\"a\": 1\x7d"))
    ∧ leetcode_analysis_normalize (wrapJson (" ```json \x7b\"a\": 1\x7d"))
      ≠ leetcode_analysis_normalize (" ```json \x7b\"a\": 1\x7d") := by
  refine ⟨rfl, rfl, fun h => ?_⟩
  exact absurd (congrArg isRawOut h) (by decide)

/-! ### The try/except structure never lets an exception escape -/

theorem pyTry_ok {α : Type} (x : Except String α) (d : α) :
    ∃ v, pyTry x (Except.ok d) = Except.ok v := by
  cases x with
  | ok v => exact ⟨v, rfl⟩
  | error e => exact ⟨d, rfl⟩

theorem tryValid_isDigit {l : List Char} {d : Char} (h : tryValid l = some d) :
    d.isDigit = true := by
  unfold tryValid at h
  split at h
  · split at h
    · split at h
      · cases h; assumption
      · exact Option.noConfusion h
    · exact Option.noConfusion h
  · exact Option.noConfusion h

theorem searchValid_isDigit : ∀ {l : List Char} {d : Char},
    searchValid l = some d → d.isDigit = true := by
  intro l
  induction l with
  | nil => intro d h; exact Option.noConfusion h
  | cons c r ih =>
    intro d h
    unfold searchValid at h
    cases ht : tryValid (c :: r) with
    | some e => rw [ht] at h; cases h; exact tryValid_isDigit ht
    | none => rw [ht] at h; exact ih h

/-- Claim C2 (confirmed): every normalization path is total — for every
input string, including empty and arbitrary ones, each pipeline returns
a value; parse exceptions are caught inside and degrade to the
fallback, never escaping the boundary. -/
theorem c2_normalize_total (raw : String) :
    (∃ v, upload_resume_normalize raw = Except.ok v)
    ∧ (∃ p, upload_certificate_normalize raw = Except.ok p)
    ∧ (∃ m, market_normalize raw = Except.ok m)
    ∧ (∃ u, leetcode_analysis_normalize raw = Except.ok u) := by
  refine ⟨?_, ?_, ?_, ?_⟩
  · obtain ⟨v, hv⟩ := pyTry_ok (upload_resume_parse raw) (JValue.arr [])
    refine ⟨if pyFalsy v then fallbackRolesJ else v, ?_⟩
    unfold upload_resume_normalize
    rw [hv]
    rfl
  · cases hs : searchValid (cleanFencesL raw.data) with
    | none =>
      refine ⟨(0, certSkillStr raw), ?_⟩
      unfold upload_certificate_normalize
      rw [hs]
    | some d =>
      have hd := searchValid_isDigit hs
      refine ⟨((d.toNat : Int) - 48, certSkillStr raw), ?_⟩
      unfold upload_certificate_normalize
      rw [hs]
      show (match pyIntOfDigit d with
            | Except.ok v => Except.ok (v, certSkillStr raw)
            | Except.error e => Except.error e)
          = Except.ok ((d.toNat : Int) - 48, certSkillStr raw)
      unfold pyIntOfDigit
      rw [if_pos hd]
  · obtain ⟨m, hm⟩ := pyTry_ok _ (none : Option JValue)
    exact ⟨m, hm⟩
  · obtain ⟨u, hu⟩ := pyTry_ok _ (LeetOut.raw raw)
    exact ⟨u, hu⟩

/-! ### The bracket-absent fallback -/

theorem resume_norm_of_parse_ok {raw : String} {v : JValue}
    (hv : upload_resume_parse raw = Except.ok v) :
    upload_resume_normalize raw = Except.ok (if pyFalsy v then fallbackRolesJ else v) := by
  unfold upload_resume_normalize
  rw [hv]
  rfl

theorem resume_norm_of_parse_err {raw : String} {e : String}
    (he : upload_resume_parse raw = Except.error e) :
    upload_resume_normalize raw = Except.ok fallbackRolesJ := by
  unfold upload_resume_normalize
  rw [he]
  rfl

/-- Claim C7 (confirmed): when, after fence stripping, the opening or
closing bracket of the expected container kind is absent, the resume
normalization returns exactly the hard-coded fallback role list and the
market normalization returns exactly `None`. -/
theorem c7_missing_bracket_fallback (raw : String) :
    ((firstIdxOf '[' (cleanFencesL raw.data) = none
        ∨ lastIdxOf ']' (cleanFencesL raw.data) = none) →
      upload_resume_normalize raw = Except.ok fallbackRolesJ)
    ∧ ((firstIdxOf lbrace (cleanFencesL raw.data) = none
        ∨ lastIdxOf rbrace (cleanFencesL raw.data) = none) →
      market_normalize raw = Except.ok none) := by
  constructor
  · intro h
    have hp : upload_resume_parse raw = Except.ok (JValue.arr []) := by
      unfold upload_resume_parse
      rcases h with h | h
      · rw [h]
      · cases hf : firstIdxOf '[' (cleanFencesL raw.data) with
        | none => rfl
        | some s => rw [h]
    rw [resume_norm_of_parse_ok hp]
    rfl
  · intro h
    unfold market_normalize
    rcases h with h | h
    · rw [h]
      rfl
    · cases hf : firstIdxOf lbrace (cleanFencesL raw.data) with
      | none => rfl
      | some s => rw [h]; rfl

/-- Witness for C7 at the spec's pure-prose example. -/
theorem c7_witness :
    upload_resume_normalize ("I cannot help with that request.") = Except.ok fallbackRolesJ
    ∧ market_normalize ("I cannot help with that request.") = Except.ok none :=
  ⟨(c7_missing_bracket_fallback ("I cannot help with that request.")).1 (Or.inl (by decide)),
   (c7_missing_bracket_fallback ("I cannot help with that request.")).2 (Or.inl (by decide))⟩

/-- Claim C4, amended (the code never drops array elements): if the
bracket slice parses to a truthy value it is delivered whole — elements
failing the role/score shape included — and the fallback is delivered
exactly when the parse block yields a falsy value or raises. -/
theorem c4_no_element_dropping (raw : String) :
    (∀ v, upload_resume_parse raw = Except.ok v → pyFalsy v = false →
        upload_resume_normalize raw = Except.ok v)
    ∧ (∀ v, upload_resume_parse raw = Except.ok v → pyFalsy v = true →
        upload_resume_normalize raw = Except.ok fallbackRolesJ)
    ∧ (∀ e, upload_resume_parse raw = Except.error e →
        upload_resume_normalize raw = Except.ok fallbackRolesJ) := by
  refine ⟨?_, ?_, ?_⟩
  · intro v hv hf
    rw [resume_norm_of_parse_ok hv, hf]
    rfl
  · intro v hv hf
    rw [resume_norm_of_parse_ok hv, hf]
    rfl
  · intro e he
    exact resume_norm_of_parse_err he

/-- Witness for the amended C4: a two-element array whose second element
lacks the role/score keys is delivered whole. -/
theorem c4_witness :
    upload_resume_normalize ("[\x7b\"role\":\"A\",\"score\":1\x7d,\x7b\"x\":2\x7d]")
      = Except.ok (JValue.arr
          [JValue.obj [("role", JValue.str ("A")), ("score", JValue.num ("1"))],
           JValue.obj [("x", JValue.num ("2"))]]) :=
  (c4_no_element_dropping ("[\x7b\"role\":\"A\",\"score\":1\x7d,\x7b\"x\":2\x7d]")).1 _ rfl rfl

/-! ### A successful parse of a `[`-headed slice is an array -/

theorem parseArrLoop_isArr : ∀ (fuel : Nat) (acc : List JValue) (l : List Char)
    (v : JValue) (rest : List Char),
    parseArrLoop fuel acc l = some (v, rest) → ∃ xs, v = JValue.arr xs := by
  intro fuel
  induction fuel with
  | zero => intro acc l v rest h; exact Option.noConfusion h
  | succ fuel ih =>
    intro acc l v rest h
    unfold parseArrLoop at h
    cases hp : parseVal fuel (skipJsonWs l) with
    | none => simp only [hp] at h; exact Option.noConfusion h
    | some pr =>
      obtain ⟨w, r0⟩ := pr
      simp only [hp] at h
      cases hs : skipJsonWs r0 with
      | nil => simp only [hs] at h; exact Option.noConfusion h
      | cons d r2 =>
        simp only [hs] at h
        by_cases hd : d = ','
        · rw [if_pos hd] at h
          exact ih _ _ v rest h
        · rw [if_neg hd] at h
          by_cases hd2 : d = ']'
          · rw [if_pos hd2] at h
            simp only [Option.some.injEq, Prod.mk.injEq] at h
            exact ⟨acc ++ [w], h.1.symm⟩
          · rw [if_neg hd2] at h
            exact Option.noConfusion h

theorem parseVal_bracket_arr : ∀ {fuel : Nat} {r : List Char} {v : JValue} {rest : List Char},
    parseVal fuel ('[' :: r) = some (v, rest) → ∃ xs, v = JValue.arr xs := by
  intro fuel r v rest h
  cases fuel with
  | zero => exact Option.noConfusion h
  | succ fuel =>
    rw [show parseVal (fuel + 1) ('[' :: r)
        = (match skipJsonWs r with
           | d :: rr =>
             if d = ']' then some (JValue.arr [], rr) else parseArrLoop fuel [] (d :: rr)
           | [] => none) from rfl] at h
    cases hs : skipJsonWs r with
    | nil => simp only [hs] at h; exact Option.noConfusion h
    | cons d rr =>
      simp only [hs] at h
      by_cases hd : d = ']'
      · rw [if_pos hd] at h
        simp only [Option.some.injEq, Prod.mk.injEq] at h
        exact ⟨[], h.1.symm⟩
      · rw [if_neg hd] at h
        exact parseArrLoop_isArr fuel [] (d :: rr) v rest h

theorem firstIdxOf_lt_length_and_get : ∀ {c : Char} (l : List Char) {k : Nat},
    firstIdxOf c l = some k → k < l.length ∧ l[k]? = some c := by
  intro c l
  induction l with
  | nil => intro k h; exact Option.noConfusion h
  | cons d r ih =>
    intro k h
    unfold firstIdxOf at h
    by_cases hd : d = c
    · rw [if_pos hd] at h
      cases h
      subst hd
      exact ⟨Nat.succ_pos _, by simp⟩
    · rw [if_neg hd] at h
      cases hk : firstIdxOf c r with
      | none => simp only [hk] at h; exact Option.noConfusion h
      | some k' =>
        rw [hk] at h
        simp only [Option.map_some', Option.some.injEq] at h
        subst h
        obtain ⟨h1, h2⟩ := ih hk
        exact ⟨Nat.succ_lt_succ h1, by simpa using h2⟩

theorem head?_take {l : List Char} {n : Nat} (h : 0 < n) : (l.take n).head? = l.head? := by
  cases l <;> cases n <;> simp_all

theorem pySlice_head {l : List Char} {s e : Nat} {c : Char} (hg : l[s]? = some c)
    (hne : pySlice l s e ≠ []) : (pySlice l s e).head? = some c := by
  have hn : 0 < e + 1 - s := by
    by_contra h0
    push_neg at h0
    exact hne (by unfold pySlice; rw [Nat.le_zero.mp h0]; rfl)
  unfold pySlice
  rw [head?_take hn, List.head?_drop]
  exact hg

/-- Claim C1, amended: the resume-roles normalization delivers either
exactly the fallback list or a JSON array parsed whole from the bracket
slice (never raw text) — but, as the counterexample shows, parsed arrays
are not validated against the role/score element shape. -/
theorem c1_fallback_or_parsed_array (raw : String) :
    upload_resume_normalize raw = Except.ok fallbackRolesJ
    ∨ ∃ s e xs, firstIdxOf '[' (cleanFencesL raw.data) = some s
        ∧ lastIdxOf ']' (cleanFencesL raw.data) = some e
        ∧ jsonLoads (pySlice (cleanFencesL raw.data) s e) = Except.ok (JValue.arr xs)
        ∧ xs ≠ []
        ∧ upload_resume_normalize raw = Except.ok (JValue.arr xs) := by
  cases hp : upload_resume_parse raw with
  | error e => exact Or.inl (resume_norm_of_parse_err hp)
  | ok v =>
    cases hf : pyFalsy v with
    | true =>
      left
      rw [resume_norm_of_parse_ok hp, hf]
      rfl
    | false =>
      right
      have hpOrig := hp
      unfold upload_resume_parse at hp
      cases hfst : firstIdxOf '[' (cleanFencesL raw.data) with
      | none =>
        simp only [hfst] at hp
        simp only [Except.ok.injEq] at hp
        subst hp
        exact absurd hf (by decide)
      | some s =>
        cases hlst : lastIdxOf ']' (cleanFencesL raw.data) with
        | none =>
          simp only [hfst, hlst] at hp
          simp only [Except.ok.injEq] at hp
          subst hp
          exact absurd hf (by decide)
        | some e =>
          simp only [hfst, hlst] at hp
          have hvarr : ∃ xs, v = JValue.arr xs := by
            by_cases hemp : pySlice (cleanFencesL raw.data) s e = []
            · rw [hemp, show jsonLoads [] = Except.error ("JSONDecodeError") from rfl] at hp
              exact Except.noConfusion hp
            · have hget := (firstIdxOf_lt_length_and_get _ hfst).2
              have hh := pySlice_head hget hemp
              obtain ⟨tl, htl⟩ : ∃ tl, pySlice (cleanFencesL raw.data) s e = '[' :: tl := by
                cases hsl : pySlice (cleanFencesL raw.data) s e with
                | nil => exact absurd hsl hemp
                | cons a tl =>
                  rw [hsl] at hh
                  simp only [List.head?_cons, Option.some.injEq] at hh
                  exact ⟨tl, by rw [hh]⟩
              rw [htl] at hp
              unfold jsonLoads at hp
              rw [show skipJsonWs ('[' :: tl) = '[' :: tl from rfl] at hp
              cases hpv : parseVal (('[' :: tl).length + 1) ('[' :: tl) with
              | none => simp only [hpv] at hp; exact Except.noConfusion hp
              | some pr =>
                obtain ⟨w, rest⟩ := pr
                simp only [hpv] at hp
                by_cases hres : (skipJsonWs rest).isEmpty = true
                · rw [if_pos hres] at hp
                  simp only [Except.ok.injEq] at hp
                  subst hp
                  exact parseVal_bracket_arr hpv
                · rw [if_neg hres] at hp
                  exact Except.noConfusion hp
          obtain ⟨xs, rfl⟩ := hvarr
          have hxs : xs ≠ [] := by
            intro h0
            subst h0
            exact absurd hf (by decide)
          refine ⟨s, e, xs, rfl, rfl, hp, hxs, ?_⟩
          rw [resume_norm_of_parse_ok hpOrig, hf]
          rfl

/-! ### The certificate skill string is stripped and title-cased -/

theorem pyWs_asciiUpper (c : Char) : pyWs (asciiUpper c) = pyWs c := by
  unfold asciiUpper
  cases hf : caseTable.find? (fun p => p.1 = c) with
  | none => rfl
  | some p =>
    have hmem := List.mem_of_find?_eq_some hf
    have hc : p.1 = c := by simpa using List.find?_some hf
    have htab : ∀ q ∈ caseTable, pyWs q.1 = false ∧ pyWs q.2 = false := by decide
    rw [← hc, (htab p hmem).2, (htab p hmem).1]

theorem pyWs_asciiLower (c : Char) : pyWs (asciiLower c) = pyWs c := by
  unfold asciiLower
  cases hf : caseTable.find? (fun p => p.2 = c) with
  | none => rfl
  | some p =>
    have hmem := List.mem_of_find?_eq_some hf
    have hc : p.2 = c := by simpa using List.find?_some hf
    have htab : ∀ q ∈ caseTable, pyWs q.1 = false ∧ pyWs q.2 = false := by decide
    rw [← hc, (htab p hmem).1, (htab p hmem).2]

theorem pyWs_titleChar (b : Bool) (c : Char) :
    pyWs (if isAsciiAlpha c then (if b then asciiLower c else asciiUpper c) else c) = pyWs c := by
  by_cases h : isAsciiAlpha c = true <;> cases b <;>
    simp [h, pyWs_asciiUpper, pyWs_asciiLower]

theorem pyTitleGo_getLast_ws : ∀ (l : List Char) (b : Bool) (c d : Char),
    (pyTitleGo b l).getLast? = some d → l.getLast? = some c → pyWs d = pyWs c := by
  intro l
  induction l with
  | nil => intro b c d h1 _; exact Option.noConfusion h1
  | cons x r ih =>
    intro b c d h1 h2
    cases r with
    | nil =>
      simp only [pyTitleGo, List.getLast?_singleton, Option.some.injEq] at h1 h2
      rw [← h1, ← h2]
      exact pyWs_titleChar b x
    | cons y t =>
      simp only [pyTitleGo, List.getLast?_cons_cons] at h1 h2
      exact ih (isAsciiAlpha x) c d h1 h2

theorem dropWhile_head_not {p : Char → Bool} : ∀ {l : List Char} {c : Char},
    (l.dropWhile p).head? = some c → p c = false := by
  intro l
  induction l with
  | nil => intro c h; exact Option.noConfusion h
  | cons d r ih =>
    intro c h
    by_cases hd : p d
    · rw [List.dropWhile_cons, if_pos hd] at h
      exact ih h
    · rw [List.dropWhile_cons, if_neg hd] at h
      simp only [List.head?_cons, Option.some.injEq] at h
      rw [← h]
      exact Bool.eq_false_iff.mpr hd

theorem rstripWs_head : ∀ {y : List Char} {c : Char},
    (rstripWs y).head? = some c → y.head? = some c := by
  intro y
  induction y with
  | nil => intro c h; exact Option.noConfusion h
  | cons a r _ =>
    intro c h
    unfold rstripWs at h
    cases hr : rstripWs r with
    | nil =>
      rw [hr] at h
      by_cases ha : pyWs a
      · rw [if_pos ha] at h; exact Option.noConfusion h
      · rw [if_neg ha] at h; simpa using h
    | cons d t =>
      rw [hr] at h
      simpa using h

theorem rstripWs_getLast_ws : ∀ {y : List Char} {c : Char},
    (rstripWs y).getLast? = some c → pyWs c = false := by
  intro y
  induction y with
  | nil => intro c h; exact Option.noConfusion h
  | cons a r ih =>
    intro c h
    unfold rstripWs at h
    cases hr : rstripWs r with
    | nil =>
      rw [hr] at h
      by_cases ha : pyWs a
      · rw [if_pos ha] at h; exact Option.noConfusion h
      · rw [if_neg ha] at h
        simp only [List.getLast?_singleton, Option.some.injEq] at h
        rw [← h]
        exact Bool.eq_false_iff.mpr ha
    | cons d t =>
      rw [hr] at h
      rw [List.getLast?_cons_cons] at h
      exact ih (hr ▸ h)

/-- Whether a char list has neither leading nor trailing Python
whitespace. -/
def noEdgeWsB (l : List Char) : Bool :=
  (match l.head? with
   | some c => !pyWs c
   | none => true)
  && (match l.getLast? with
      | some c => !pyWs c
      | none => true)

theorem noEdgeWs_title_strip (cap : List Char) :
    noEdgeWsB (pyTitle (pyStrip cap)) = true := by
  cases hs : pyStrip cap with
  | nil => rfl
  | cons c r =>
    have hhead : pyWs c = false := by
      have h1 : (pyStrip cap).head? = some c := by rw [hs]; rfl
      exact dropWhile_head_not (rstripWs_head h1)
    obtain ⟨c2, hlast⟩ : ∃ c2, (c :: r).getLast? = some c2 := by
      cases hgl : (c :: r).getLast? with
      | none => exact absurd (List.getLast?_eq_none_iff.mp hgl) (List.cons_ne_nil c r)
      | some c2 => exact ⟨c2, rfl⟩
    have hlast_ws : pyWs c2 = false := by
      have h1 : (rstripWs (cap.dropWhile pyWs)).getLast? = some c2 := by
        show (pyStrip cap).getLast? = some c2
        rw [hs]; exact hlast
      exact rstripWs_getLast_ws h1
    obtain ⟨d, hd⟩ : ∃ d, (pyTitleGo false (c :: r)).getLast? = some d := by
      cases hgl : (pyTitleGo false (c :: r)).getLast? with
      | none =>
        have := List.getLast?_eq_none_iff.mp hgl
        simp only [pyTitleGo] at this
        exact absurd this (List.cons_ne_nil _ _)
      | some d => exact ⟨d, rfl⟩
    have hdws : pyWs d = pyWs c2 := pyTitleGo_getLast_ws (c :: r) false c2 d hd hlast
    unfold noEdgeWsB
    show ((match (pyTitle (c :: r)).head? with
           | some c => !pyWs c
           | none => true)
        && (match (pyTitle (c :: r)).getLast? with
            | some c => !pyWs c
            | none => true)) = true
    have hh2 : (pyTitle (c :: r)).head?
        = some (if isAsciiAlpha c then (if false then asciiLower c else asciiUpper c) else c) := rfl
    rw [hh2, show (pyTitle (c :: r)).getLast? = some d from hd]
    have htc := pyWs_titleChar false c
    simp only [Bool.false_eq_true, if_false] at htc
    simp [htc, hhead, hdws, hlast_ws]

/-- Claim C10 (confirmed): the skill delivered by the certificate path
has no leading or trailing whitespace and is always either the default
`"Unknown Skill"` or the regex capture passed through `.strip().title()`
— never the raw capture. -/
theorem c10_skill_normalized (raw : String) :
    noEdgeWsB (certSkillStr raw).data = true
    ∧ (certSkillStr raw = "Unknown Skill"
       ∨ ∃ cap, searchSkill (cleanFencesL raw.data) = some cap
           ∧ certSkillStr raw = String.mk (pyTitle (pyStrip cap)))
    ∧ ∀ v s, upload_certificate_normalize raw = Except.ok (v, s) → s = certSkillStr raw := by
  refine ⟨?_, ?_, ?_⟩
  · unfold certSkillStr
    cases hs : searchSkill (cleanFencesL raw.data) with
    | none => decide
    | some cap =>
      show noEdgeWsB (String.mk (pyTitle (pyStrip cap))).data = true
      exact noEdgeWs_title_strip cap
  · unfold certSkillStr
    cases hs : searchSkill (cleanFencesL raw.data) with
    | none => exact Or.inl rfl
    | some cap => exact Or.inr ⟨cap, rfl, rfl⟩
  · intro v s h
    unfold upload_certificate_normalize at h
    cases hv : searchValid (cleanFencesL raw.data) with
    | none =>
      simp only [hv, Except.ok.injEq, Prod.mk.injEq] at h
      exact h.2.symm
    | some d =>
      simp only [hv] at h
      cases hi : pyIntOfDigit d with
      | ok w =>
        simp only [hi, Except.ok.injEq, Prod.mk.injEq] at h
        exact h.2.symm
      | error e =>
        simp only [hi] at h
        exact Except.noConfusion h

/-- Witness for C10: the capture `python ` is stored as `Python`. -/
theorem c10_witness :
    upload_certificate_normalize ("\x7b\"valid\": 1, \"skill\": \"python \"\x7d")
      = Except.ok (1, "Python")
    ∧ ("Python" : String) = certSkillStr ("\x7b\"valid\": 1, \"skill\": \"python \"\x7d") :=
  ⟨rfl,
   (c10_skill_normalized ("\x7b\"valid\": 1, \"skill\": \"python \"\x7d")).2.2 1 ("Python") rfl⟩

/-! ### The classifier returns the first maximal domain in table order -/

def listMaxSnd (a : Nat) (l : List (String × Nat)) : Nat :=
  l.foldl (fun m q => max m q.2) a

/-- Following the spec: the maximum keyword score over the table. -/
def specMaxScore (scores : List (String × Nat)) : Nat :=
  (scores.map Prod.snd).foldl max 0

/-- Following the spec: the first domain in table-declaration order whose
score equals the maximum score. -/
def specFirstArgmax (scores : List (String × Nat)) : Option String :=
  (scores.find? (fun p => p.2 = specMaxScore scores)).map Prod.fst

theorem le_listMaxSnd : ∀ (l : List (String × Nat)) (a : Nat), a ≤ listMaxSnd a l := by
  intro l
  induction l with
  | nil => intro a; exact le_rfl
  | cons q rest ih =>
    intro a
    calc a ≤ max a q.2 := Nat.le_max_left _ _
      _ ≤ listMaxSnd (max a q.2) rest := ih _

theorem foldl_pick_snd : ∀ (rest : List (String × Nat)) (p : String × Nat),
    (rest.foldl (fun acc q => if q.2 > acc.2 then q else acc) p).2 = listMaxSnd p.2 rest := by
  intro rest
  induction rest with
  | nil => intro p; rfl
  | cons q rest ih =>
    intro p
    show (rest.foldl (fun acc q => if q.2 > acc.2 then q else acc)
          (if q.2 > p.2 then q else p)).2 = listMaxSnd (max p.2 q.2) rest
    rw [ih]
    have : (if q.2 > p.2 then q else p).2 = max p.2 q.2 := by
      by_cases h : q.2 > p.2
      · rw [if_pos h, Nat.max_eq_right (Nat.le_of_lt h)]
      · rw [if_neg h, Nat.max_eq_left (Nat.le_of_not_lt h)]
    rw [this]

theorem foldl_pick_find : ∀ (rest : List (String × Nat)) (p : String × Nat),
    List.find? (fun x => x.2 = (rest.foldl (fun acc q => if q.2 > acc.2 then q else acc) p).2)
        (p :: rest)
      = some (rest.foldl (fun acc q => if q.2 > acc.2 then q else acc) p) := by
  intro rest
  induction rest with
  | nil =>
    intro p
    simp [List.find?]
  | cons q rest ih =>
    intro p
    by_cases h : q.2 > p.2
    · have hfold : (q :: rest).foldl (fun acc q => if q.2 > acc.2 then q else acc) p
          = rest.foldl (fun acc q => if q.2 > acc.2 then q else acc) q := by
        simp [List.foldl_cons, h]
      rw [hfold]
      have hge : q.2 ≤ (rest.foldl (fun acc q => if q.2 > acc.2 then q else acc) q).2 := by
        rw [foldl_pick_snd]
        exact le_listMaxSnd rest q.2
      have hne : ¬ p.2 = (rest.foldl (fun acc q => if q.2 > acc.2 then q else acc) q).2 := by
        omega
      rw [List.find?_cons_of_neg _ (by simpa using hne)]
      exact ih q
    · have hfold : (q :: rest).foldl (fun acc q => if q.2 > acc.2 then q else acc) p
          = rest.foldl (fun acc q => if q.2 > acc.2 then q else acc) p := by
        simp [List.foldl_cons, h]
      rw [hfold]
      have hge : p.2 ≤ (rest.foldl (fun acc q => if q.2 > acc.2 then q else acc) p).2 := by
        rw [foldl_pick_snd]
        exact le_listMaxSnd rest p.2
      by_cases hp : p.2 = (rest.foldl (fun acc q => if q.2 > acc.2 then q else acc) p).2
      · have hfind := ih p
        rw [List.find?_cons_of_pos _ (by simpa using hp)] at hfind
        rw [List.find?_cons_of_pos _ (by simpa using hp)]
        exact hfind
      · have hq : ¬ q.2 = (rest.foldl (fun acc q => if q.2 > acc.2 then q else acc) p).2 := by
          omega
        rw [List.find?_cons_of_neg _ (by simpa using hp), List.find?_cons_of_neg _ (by simpa using hq)]
        have hfind := ih p
        rw [List.find?_cons_of_neg _ (by simpa using hp)] at hfind
        exact hfind

theorem specMaxScore_cons (p : String × Nat) (rest : List (String × Nat)) :
    specMaxScore (p :: rest) = listMaxSnd p.2 rest := by
  unfold specMaxScore listMaxSnd
  rw [List.map_cons, List.foldl_cons, Nat.zero_max, List.foldl_map]

theorem pyMaxByFirst_spec (p : String × Nat) (rest : List (String × Nat)) :
    some (pyMaxByFirst (p :: rest)) = specFirstArgmax (p :: rest) := by
  unfold pyMaxByFirst specFirstArgmax
  rw [specMaxScore_cons, ← foldl_pick_snd rest p, foldl_pick_find rest p]
  rfl

/-- Claim C9 (confirmed): both classifiers are (deterministic) functions
of the text, and whenever some rule keyword occurs — equivalently, not
every score is zero — `classify_project` returns exactly the first
domain in table-declaration order whose keyword count equals the
maximum; `classify_project_k` does so unconditionally. -/
theorem c9_first_argmax (description : String) (languages : List String) :
    ((scoreTable PROJECT_DOMAIN_RULES (classifyText description languages)).all
        (fun p => p.2 = 0) = false →
      some (classify_project description languages)
        = specFirstArgmax (scoreTable PROJECT_DOMAIN_RULES (classifyText description languages)))
    ∧ some (classify_project_k description languages)
        = specFirstArgmax (scoreTable PROJECT_DOMAIN_RULES_K (classifyText description languages)) := by
  constructor
  · intro h
    unfold classify_project
    rw [h]
    simp only [Bool.false_eq_true, if_false]
    exact pyMaxByFirst_spec _ _
  · unfold classify_project_k
    exact pyMaxByFirst_spec _ _

/-- Witness for C9 on a text where keywords of two domains occur. -/
theorem c9_witness :
    (scoreTable PROJECT_DOMAIN_RULES (classifyText ("arduino flask demo") ["Python"])).all
        (fun p => p.2 = 0) = false
    ∧ some (classify_project ("arduino flask demo") ["Python"])
        = specFirstArgmax (scoreTable PROJECT_DOMAIN_RULES (classifyText ("arduino flask demo") ["Python"])) :=
  ⟨by decide, (c9_first_argmax ("arduino flask demo") ["Python"]).1 (by decide)⟩

/-! ### Fence stripping under json-fence wrapping (claim C6): utilities -/

def closeFence : List Char := "\n```".data

def wrapData (l : List Char) : List Char := fenceJson ++ '\n' :: (l ++ closeFence)

theorem wrapJson_data (t : String) : (wrapJson t).data = wrapData t.data := by
  show ("```json\n" ++ t ++ "\n```").data = _
  rw [String.data_append, String.data_append]
  rw [show ("```json\n").data = fenceJson ++ ['\n'] from rfl]
  rw [List.append_assoc, List.append_assoc]
  rfl

theorem isPrefixOf_append_right {p s u : List Char} (h : p.isPrefixOf s = true) :
    p.isPrefixOf (s ++ u) = true := by
  obtain ⟨t, rfl⟩ := (isPrefixOf_iff_exists p s).mp h
  exact (isPrefixOf_iff_exists _ _).mpr ⟨t ++ u, by rw [List.append_assoc]⟩

theorem isPrefixOf_cons_head {x : Char} {p : List Char} {c : Char} {r : List Char}
    (h : (x :: p).isPrefixOf (c :: r) = true) : x = c := by
  obtain ⟨t, ht⟩ := (isPrefixOf_iff_exists _ _).mp h
  injection ht with h1 _
  exact h1.symm

theorem isPrefixOf_append_head {pat u : List Char} {w0 : Char} {W : List Char}
    (hh : ∀ a ∈ pat, ¬ a = w0)
    (h : pat.isPrefixOf (u ++ w0 :: W) = true) : pat.isPrefixOf u = true := by
  obtain ⟨t, ht⟩ := (isPrefixOf_iff_exists _ _).mp h
  rcases List.append_eq_append_iff.mp ht with ⟨w, hw1, hw2⟩ | ⟨w, hw1, hw2⟩
  · cases w with
    | nil =>
      rw [List.append_nil] at hw1
      exact (isPrefixOf_iff_exists _ _).mpr ⟨[], by rw [hw1, List.append_nil]⟩
    | cons x w2 =>
      injection hw2 with h1 _
      have hx : x ∈ pat := by
        rw [hw1]
        exact List.mem_append_right _ (List.mem_cons_self _ _)
      exact absurd h1.symm (hh x hx)
  · exact (isPrefixOf_iff_exists _ _).mpr ⟨w, hw1⟩

theorem matchA_none_of_head {c : Char} {rest : List Char} (hc : ¬ c = '`') :
    matchA (c :: rest) = none := by
  unfold matchA
  have h' : ¬ fenceJson.isPrefixOf (c :: rest) = true := by
    intro h
    have h2 : ('`' :: (("``json").data)).isPrefixOf (c :: rest) = true := h
    exact hc (isPrefixOf_cons_head h2).symm
  rw [if_neg h']

theorem matchB_none_of_head {c : Char} {rest : List Char} (h1 : pyWs c = false)
    (h2 : ¬ c = '`') : matchB (c :: rest) = none := by
  unfold matchB
  have hd : (c :: rest).dropWhile pyWs = c :: rest := by
    rw [List.dropWhile_cons, if_neg (by simp [h1])]
  rw [hd]
  have h' : ¬ ticks.isPrefixOf (c :: rest) = true := by
    intro h
    have h3 : ('`' :: (("``").data)).isPrefixOf (c :: rest) = true := h
    exact h2 (isPrefixOf_cons_head h3).symm
  rw [if_neg h']

theorem sub_allws {w : List Char} (hw : ∀ c ∈ w, pyWs c = true) : subFences w = w := by
  induction w with
  | nil => rfl
  | cons c r ih =>
    have hc := hw c (List.mem_cons_self c r)
    have hA : matchA (c :: r) = none :=
      matchA_none_of_head (fun h => by rw [h] at hc; exact absurd hc (by decide))
    have hB : matchB (c :: r) = none := by
      unfold matchB
      have hdw : (c :: r).dropWhile pyWs = [] := List.dropWhile_eq_nil_iff.mpr hw
      rw [hdw]
      rfl
    rw [subFences_emit hA hB, ih (fun x hx => hw x (List.mem_cons_of_mem _ hx))]

theorem sub_ws_emit {w v : List Char} (hw : ∀ c ∈ w, pyWs c = true)
    (hv : ticks.isPrefixOf (v.dropWhile pyWs) = false) :
    subFences (w ++ v) = w ++ subFences v := by
  induction w with
  | nil => simp
  | cons c w' ih =>
    have hc := hw c (List.mem_cons_self c w')
    have hA : matchA (c :: (w' ++ v)) = none :=
      matchA_none_of_head (fun h => by rw [h] at hc; exact absurd hc (by decide))
    have hB : matchB (c :: (w' ++ v)) = none := by
      unfold matchB
      have hw' : w'.dropWhile pyWs = [] :=
        List.dropWhile_eq_nil_iff.mpr (fun x hx => hw x (List.mem_cons_of_mem _ hx))
      have hdw : (c :: (w' ++ v)).dropWhile pyWs = v.dropWhile pyWs := by
        rw [List.dropWhile_cons, if_pos hc, List.dropWhile_append, hw']
        simp
      rw [hdw, if_neg (by simp [hv])]
    show subFences (c :: (w' ++ v)) = c :: (w' ++ subFences v)
    rw [subFences_emit hA hB, ih (fun x hx => hw x (List.mem_cons_of_mem _ hx))]

theorem sub_json_emit (x : List Char) :
    subFences ('j' :: 's' :: 'o' :: 'n' :: x) = 'j' :: 's' :: 'o' :: 'n' :: subFences x := by
  rw [subFences_emit (matchA_none_of_head (by decide)) (matchB_none_of_head (by decide) (by decide)),
      subFences_emit (matchA_none_of_head (by decide)) (matchB_none_of_head (by decide) (by decide)),
      subFences_emit (matchA_none_of_head (by decide)) (matchB_none_of_head (by decide) (by decide)),
      subFences_emit (matchA_none_of_head (by decide)) (matchB_none_of_head (by decide) (by decide))]

/-! ### Destructuring the two regex alternatives -/

theorem matchA_some_elim {l r : List Char} (h : matchA l = some r) :
    fenceJson.isPrefixOf l = true ∧ r = (l.drop 7).dropWhile pyWs := by
  unfold matchA at h
  split at h
  · rename_i hp
    exact ⟨hp, (Option.some.inj h).symm⟩
  · exact Option.noConfusion h

theorem matchA_none_elim {l : List Char} (h : matchA l = none) :
    fenceJson.isPrefixOf l = false := by
  unfold matchA at h
  split at h
  · exact Option.noConfusion h
  · rename_i hp
    exact Bool.eq_false_iff.mpr hp

theorem matchA_some_intro {l : List Char} (hp : fenceJson.isPrefixOf l = true) :
    matchA l = some ((l.drop 7).dropWhile pyWs) := by
  unfold matchA
  rw [if_pos hp]

theorem matchB_some_elim {l r : List Char} (h : matchB l = some r) :
    ticks.isPrefixOf (l.dropWhile pyWs) = true ∧ r = (l.dropWhile pyWs).drop 3 := by
  unfold matchB at h
  split at h
  · rename_i hp
    exact ⟨hp, (Option.some.inj h).symm⟩
  · exact Option.noConfusion h

theorem matchB_none_elim {l : List Char} (h : matchB l = none) :
    ticks.isPrefixOf (l.dropWhile pyWs) = false := by
  unfold matchB at h
  split at h
  · exact Option.noConfusion h
  · rename_i hp
    exact Bool.eq_false_iff.mpr hp

theorem matchB_some_intro {l : List Char} (hp : ticks.isPrefixOf (l.dropWhile pyWs) = true) :
    matchB l = some ((l.dropWhile pyWs).drop 3) := by
  unfold matchB
  rw [if_pos hp]

theorem isPrefixOf_trans {a b l : List Char} (h1 : a.isPrefixOf b = true)
    (h2 : b.isPrefixOf l = true) : a.isPrefixOf l = true := by
  obtain ⟨t1, rfl⟩ := (isPrefixOf_iff_exists a b).mp h1
  obtain ⟨t2, rfl⟩ := (isPrefixOf_iff_exists _ l).mp h2
  exact (isPrefixOf_iff_exists _ _).mpr ⟨t1 ++ t2, by rw [List.append_assoc]⟩

theorem matchA_none_append_close {s : List Char} (h : matchA s = none) :
    matchA (s ++ closeFence) = none := by
  have hf := matchA_none_elim h
  unfold matchA
  exact if_neg (fun hcon => by
    have h2 : fenceJson.isPrefixOf (s ++ '\n' :: ticks) = true := hcon
    have h3 := isPrefixOf_append_head (by decide) h2
    rw [h3] at hf
    exact Bool.noConfusion hf)

/-! ### rstrip facts -/

theorem rstrip_cons_eq {c : Char} {L : List Char} (h : pyWs c = false ∨ rstripWs L ≠ []) :
    rstripWs (c :: L) = c :: rstripWs L := by
  show (match rstripWs L with
        | [] => if pyWs c = true then [] else [c]
        | d :: t => c :: d :: t) = c :: rstripWs L
  cases hr : rstripWs L with
  | nil =>
    rcases h with h | h
    · simp [h]
    · exact absurd hr h
  | cons d t => rfl

theorem rstrip_eq_nil_iff : ∀ {L : List Char}, (rstripWs L = [] ↔ ∀ c ∈ L, pyWs c = true) := by
  intro L
  induction L with
  | nil => simp [rstripWs]
  | cons c r ih =>
    show (match rstripWs r with
          | [] => if pyWs c = true then [] else [c]
          | d :: t => c :: d :: t) = [] ↔ ∀ x ∈ c :: r, pyWs x = true
    cases hr : rstripWs r with
    | nil =>
      have hall := ih.mp hr
      by_cases hc : pyWs c = true
      · constructor
        · intro _
          exact List.forall_mem_cons.mpr ⟨hc, hall⟩
        · intro _
          rw [if_pos hc]
      · constructor
        · intro hcon
          rw [if_neg hc] at hcon
          exact absurd hcon (by simp)
        · intro hcon
          exact absurd (List.forall_mem_cons.mp hcon).1 hc
    | cons d t =>
      constructor
      · intro hcon
        exact List.noConfusion hcon
      · intro hcon
        have h2 := ih.mpr (List.forall_mem_cons.mp hcon).2
        rw [h2] at hr
        exact List.noConfusion hr

theorem rstrip_allws {L : List Char} (h : ∀ c ∈ L, pyWs c = true) : rstripWs L = [] :=
  rstrip_eq_nil_iff.mpr h

/-! ### A surviving non-whitespace character -/

theorem dws_head_nonws {u : List Char} {d : Char} {rest : List Char}
    (h : u.dropWhile pyWs = d :: rest) : pyWs d = false := by
  apply dropWhile_head_not (l := u) (p := pyWs)
  rw [h]
  rfl

theorem sub_has_nonws {u : List Char} (hnb : ticks.isPrefixOf (u.dropWhile pyWs) = false)
    (hnw : ¬ ∀ x ∈ u, pyWs x = true) : ∃ y ∈ subFences u, pyWs y = false := by
  have hv_ne : u.dropWhile pyWs ≠ [] := by
    intro h0
    exact hnw (List.dropWhile_eq_nil_iff.mp h0)
  obtain ⟨d, rest, hd⟩ : ∃ d rest, u.dropWhile pyWs = d :: rest := by
    cases hv : u.dropWhile pyWs with
    | nil => exact absurd hv hv_ne
    | cons d rest => exact ⟨d, rest, rfl⟩
  have hdnw : pyWs d = false := dws_head_nonws hd
  have hA : matchA (d :: rest) = none := by
    unfold matchA
    exact if_neg (fun hcon => by
      have htr : ticks.isPrefixOf (d :: rest) = true :=
        isPrefixOf_trans (by decide) hcon
      rw [← hd] at htr
      rw [htr] at hnb
      exact Bool.noConfusion hnb)
  have hB : matchB (d :: rest) = none := by
    unfold matchB
    have hdd : (d :: rest).dropWhile pyWs = d :: rest := by
      rw [List.dropWhile_cons, if_neg (by simp [hdnw])]
    rw [hdd]
    exact if_neg (fun hcon => by
      rw [← hd] at hcon
      rw [hcon] at hnb
      exact Bool.noConfusion hnb)
  have hsplit : subFences u = u.takeWhile pyWs ++ (d :: subFences rest) := by
    conv =>
      left
      rw [show u = u.takeWhile pyWs ++ u.dropWhile pyWs from
            (List.takeWhile_append_dropWhile pyWs u).symm]
    rw [hd, sub_ws_emit (fun x hx => List.mem_takeWhile_imp hx)
          (by rw [show (d :: rest).dropWhile pyWs = d :: rest from by
                    rw [List.dropWhile_cons, if_neg (by simp [hdnw])], ← hd]
              exact hnb),
        subFences_emit hA hB]
  rw [hsplit]
  exact ⟨d, List.mem_append_right _ (List.mem_cons_self _ _), hdnw⟩

/-! ### Appending the closing fence right-strips the scan result -/

theorem subFences_append_close : ∀ (n : Nat) (s : List Char), s.length ≤ n →
    subFences (s ++ closeFence) = rstripWs (subFences s) := by
  intro n
  induction n with
  | zero =>
    intro s h
    have h0 : s = [] := List.eq_nil_of_length_eq_zero (Nat.le_zero.mp h)
    subst h0
    rfl
  | succ n ih =>
    intro s hlen
    cases s with
    | nil => rfl
    | cons c s0 =>
      cases hA : matchA (c :: s0) with
      | some r =>
        obtain ⟨hp, hr⟩ := matchA_some_elim hA
        have h7 : 7 ≤ (c :: s0).length := isPrefixOf_length hp
        have hpe : fenceJson.isPrefixOf ((c :: s0) ++ closeFence) = true :=
          isPrefixOf_append_right hp
        have hdrop : ((c :: s0) ++ closeFence).drop 7 = (c :: s0).drop 7 ++ closeFence :=
          List.drop_append_of_le_length h7
        by_cases hws : ((c :: s0).drop 7).dropWhile pyWs = []
        · have hr0 : r = [] := by rw [hr, hws]
          have hA2 : matchA ((c :: s0) ++ closeFence) = some ticks := by
            rw [matchA_some_intro hpe, hdrop, List.dropWhile_append, hws]
            rfl
          have hE1 : subFences ((c :: s0) ++ closeFence) = subFences ticks :=
            subFences_matchA hA2
          rw [hE1, subFences_matchA hA, hr0]
          rfl
        · have hA2 : matchA ((c :: s0) ++ closeFence) = some (r ++ closeFence) := by
            rw [matchA_some_intro hpe, hdrop, List.dropWhile_append,
                if_neg (fun hcon => hws (by simpa using hcon)), hr]
          rw [subFences_matchA hA, subFences_matchA hA2]
          have hrlen := matchA_some_le hA
          exact ih r (by simp at hlen hrlen ⊢; omega)
      | none =>
        have hA2 : matchA ((c :: s0) ++ closeFence) = none := matchA_none_append_close hA
        cases hB : matchB (c :: s0) with
        | some r =>
          obtain ⟨hp, hr⟩ := matchB_some_elim hB
          have hne : (c :: s0).dropWhile pyWs ≠ [] := by
            intro h0
            rw [h0] at hp
            exact absurd hp (by decide)
          have hdw : ((c :: s0) ++ closeFence).dropWhile pyWs
              = (c :: s0).dropWhile pyWs ++ closeFence := by
            rw [List.dropWhile_append, if_neg (fun hcon => hne (by simpa using hcon))]
          have h3 : 3 ≤ ((c :: s0).dropWhile pyWs).length := isPrefixOf_length hp
          have hB2 : matchB ((c :: s0) ++ closeFence) = some (r ++ closeFence) := by
            unfold matchB
            rw [hdw, if_pos (isPrefixOf_append_right hp), hr,
                List.drop_append_of_le_length h3]
          rw [subFences_matchB hA hB, subFences_matchB hA2 hB2]
          have hrlen := matchB_some_le hB
          exact ih r (by simp at hlen hrlen ⊢; omega)
        | none =>
          have hBfalse := matchB_none_elim hB
          by_cases hall : ∀ x ∈ c :: s0, pyWs x = true
          · have hdw : ((c :: s0) ++ closeFence).dropWhile pyWs = ticks := by
              rw [List.dropWhile_append,
                  if_pos (by simp [List.dropWhile_eq_nil_iff.mpr hall])]
              rfl
            have hB2 : matchB ((c :: s0) ++ closeFence) = some ([]) := by
              unfold matchB
              rw [hdw]
              rfl
            rw [subFences_matchB hA2 hB2, sub_allws hall, rstrip_allws hall]
            rfl
          · have hne : (c :: s0).dropWhile pyWs ≠ [] := by
              intro h0
              exact hall (List.dropWhile_eq_nil_iff.mp h0)
            have hdw : ((c :: s0) ++ closeFence).dropWhile pyWs
                = (c :: s0).dropWhile pyWs ++ closeFence := by
              rw [List.dropWhile_append, if_neg (fun hcon => hne (by simpa using hcon))]
            have hB2 : matchB ((c :: s0) ++ closeFence) = none := by
              unfold matchB
              rw [hdw]
              exact if_neg (fun hcon => by
                have h2 : ticks.isPrefixOf ((c :: s0).dropWhile pyWs ++ '\n' :: ticks) = true := hcon
                have h3 := isPrefixOf_append_head (by decide) h2
                rw [h3] at hBfalse
                exact Bool.noConfusion hBfalse)
            have hA2c : matchA (c :: (s0 ++ closeFence)) = none := hA2
            have hB2c : matchB (c :: (s0 ++ closeFence)) = none := hB2
            have hlhs : subFences ((c :: s0) ++ closeFence)
                = c :: subFences (s0 ++ closeFence) := subFences_emit hA2c hB2c
            rw [hlhs, ih s0 (by simp at hlen ⊢; omega), subFences_emit hA hB]
            by_cases hc : pyWs c = true
            · have hs0nb : ticks.isPrefixOf (s0.dropWhile pyWs) = false := by
                have : (c :: s0).dropWhile pyWs = s0.dropWhile pyWs := by
                  rw [List.dropWhile_cons, if_pos hc]
                rw [this] at hBfalse
                exact hBfalse
              have hs0nw : ¬ ∀ x ∈ s0, pyWs x = true := by
                intro hcon
                exact hall (List.forall_mem_cons.mpr ⟨hc, hcon⟩)
              obtain ⟨y, hy1, hy2⟩ := sub_has_nonws hs0nb hs0nw
              have hrne : rstripWs (subFences s0) ≠ [] := by
                intro h0
                have := rstrip_eq_nil_iff.mp h0 y hy1
                rw [this] at hy2
                exact Bool.noConfusion hy2
              rw [rstrip_cons_eq (Or.inr hrne)]
            · rw [rstrip_cons_eq (Or.inl (Bool.eq_false_iff.mpr hc))]

/-! ### Stripping the leading whitespace costs only junk characters -/

theorem dws_idem (l : List Char) : (l.dropWhile pyWs).dropWhile pyWs = l.dropWhile pyWs := by
  cases h : l.dropWhile pyWs with
  | nil => rfl
  | cons c r =>
    have hc := dws_head_nonws h
    rw [List.dropWhile_cons, if_neg (by simp [hc])]

/-- A junk character: whitespace or one of the letters of `json` that a
backtick-eating match can leave behind. -/
def junkChar (c : Char) : Prop :=
  pyWs c = true ∨ c = 'j' ∨ c = 's' ∨ c = 'o' ∨ c = 'n'

theorem sub_junk_decomp : ∀ (m : Nat) (t : List Char), t.length ≤ m →
    ∃ J, (∀ c ∈ J, junkChar c) ∧ subFences t = J ++ subFences (t.dropWhile pyWs) := by
  intro m
  induction m with
  | zero =>
    intro t h
    have h0 : t = [] := List.eq_nil_of_length_eq_zero (Nat.le_zero.mp h)
    subst h0
    exact ⟨[], by simp, rfl⟩
  | succ m ih =>
    intro t hlen
    have hwks : ∀ c ∈ t.takeWhile pyWs, pyWs c = true :=
      fun c hc => List.mem_takeWhile_imp hc
    by_cases hB0 : ticks.isPrefixOf (t.dropWhile pyWs) = true
    · by_cases hW : t.takeWhile pyWs = []
      · have ht : t.dropWhile pyWs = t := by
          have h1 := List.takeWhile_append_dropWhile pyWs t
          rw [hW] at h1
          simpa using h1
        exact ⟨[], by simp, by rw [ht]; rfl⟩
      · obtain ⟨cw, w', hw⟩ : ∃ cw w', t.takeWhile pyWs = cw :: w' := by
          cases hx : t.takeWhile pyWs with
          | nil => exact absurd hx hW
          | cons cw w' => exact ⟨cw, w', rfl⟩
        have hcw : pyWs cw = true := hwks cw (by rw [hw]; exact List.mem_cons_self _ _)
        have ht_shape : t = cw :: (w' ++ t.dropWhile pyWs) := by
          conv =>
            left
            rw [← List.takeWhile_append_dropWhile pyWs t]
          rw [hw]
          rfl
        have hA : matchA t = none := by
          rw [ht_shape]
          exact matchA_none_of_head (fun h0 => by rw [h0] at hcw; exact absurd hcw (by decide))
        have hBt : matchB t = some ((t.dropWhile pyWs).drop 3) := matchB_some_intro hB0
        by_cases hF : fenceJson.isPrefixOf (t.dropWhile pyWs) = true
        · obtain ⟨r2, hr2⟩ := (isPrefixOf_iff_exists _ _).mp hF
          have hdrop3 : (t.dropWhile pyWs).drop 3 = 'j' :: 's' :: 'o' :: 'n' :: r2 := by
            rw [hr2]
            rfl
          have hsubt : subFences t = 'j' :: 's' :: 'o' :: 'n' :: subFences r2 := by
            rw [subFences_matchB hA hBt, hdrop3, sub_json_emit]
          have hsubr : subFences (t.dropWhile pyWs) = subFences (r2.dropWhile pyWs) := by
            have hAr := matchA_some_intro hF
            have h7 : (t.dropWhile pyWs).drop 7 = r2 := by
              rw [hr2]
              exact List.drop_left fenceJson r2
            rw [subFences_matchA hAr, h7]
          have hlen2 : r2.length ≤ m := by
            have e1 : t.length = (t.takeWhile pyWs).length + (t.dropWhile pyWs).length := by
              conv =>
                left
                rw [← List.takeWhile_append_dropWhile pyWs t]
              rw [List.length_append]
            have e2 : (t.dropWhile pyWs).length = 7 + r2.length := by
              rw [hr2, List.length_append]
              rfl
            have e3 : 1 ≤ (t.takeWhile pyWs).length := by
              rw [hw]
              exact Nat.succ_le_succ (Nat.zero_le _)
            omega
          obtain ⟨J2, hJ2, hK2⟩ := ih r2 hlen2
          refine ⟨'j' :: 's' :: 'o' :: 'n' :: J2, ?_, ?_⟩
          · intro c hc
            rcases List.mem_cons.mp hc with rfl | hc
            · exact Or.inr (Or.inl rfl)
            rcases List.mem_cons.mp hc with rfl | hc
            · exact Or.inr (Or.inr (Or.inl rfl))
            rcases List.mem_cons.mp hc with rfl | hc
            · exact Or.inr (Or.inr (Or.inr (Or.inl rfl)))
            rcases List.mem_cons.mp hc with rfl | hc
            · exact Or.inr (Or.inr (Or.inr (Or.inr rfl)))
            · exact hJ2 c hc
          · rw [hsubt, hK2, hsubr]
            rfl
        · have hAr : matchA (t.dropWhile pyWs) = none := by
            unfold matchA
            rw [if_neg (by simp [hF])]
          have hdwr : (t.dropWhile pyWs).dropWhile pyWs = t.dropWhile pyWs := dws_idem t
          have hBr : matchB (t.dropWhile pyWs) = some ((t.dropWhile pyWs).drop 3) := by
            have h1 := matchB_some_intro (l := t.dropWhile pyWs) (by rw [hdwr]; exact hB0)
            rw [hdwr] at h1
            exact h1
          exact ⟨[], by simp, by
            rw [subFences_matchB hA hBt, subFences_matchB hAr hBr]
            rfl⟩
    · have hv : ticks.isPrefixOf ((t.dropWhile pyWs).dropWhile pyWs) = false := by
        rw [dws_idem]
        exact Bool.eq_false_iff.mpr hB0
      have h1 := sub_ws_emit (w := t.takeWhile pyWs) (v := t.dropWhile pyWs) hwks hv
      rw [List.takeWhile_append_dropWhile] at h1
      exact ⟨t.takeWhile pyWs, fun c hc => Or.inl (hwks c hc), h1⟩

/-! ### The wrapped input reduces to a right-stripped scan of the body -/

theorem sub_wrap (t : List Char) :
    subFences (wrapData t) = rstripWs (subFences (t.dropWhile pyWs)) := by
  have hA : matchA (wrapData t) = some ((t ++ closeFence).dropWhile pyWs) := by
    unfold wrapData
    have hp : fenceJson.isPrefixOf (fenceJson ++ '\n' :: (t ++ closeFence)) = true :=
      (isPrefixOf_iff_exists _ _).mpr ⟨_, rfl⟩
    rw [matchA_some_intro hp]
    rfl
  rw [subFences_matchA hA]
  by_cases hall : ∀ c ∈ t, pyWs c = true
  · have h1 : (t ++ closeFence).dropWhile pyWs = ticks := by
      rw [List.dropWhile_append, if_pos (by simp [List.dropWhile_eq_nil_iff.mpr hall])]
      rfl
    have h2 : t.dropWhile pyWs = [] := List.dropWhile_eq_nil_iff.mpr hall
    rw [h1, h2]
    rfl
  · have hne : t.dropWhile pyWs ≠ [] := fun h0 => hall (List.dropWhile_eq_nil_iff.mp h0)
    have h1 : (t ++ closeFence).dropWhile pyWs = t.dropWhile pyWs ++ closeFence := by
      rw [List.dropWhile_append, if_neg (fun hcon => hne (by simpa using hcon))]
    rw [h1]
    exact subFences_append_close (t.dropWhile pyWs).length _ le_rfl

/-! ### strip / rstrip commutation -/

theorem rstrip_dropWhile_comm : ∀ (Y : List Char),
    (rstripWs Y).dropWhile pyWs = rstripWs (Y.dropWhile pyWs) := by
  intro Y
  induction Y with
  | nil => rfl
  | cons c r ih =>
    by_cases hc : pyWs c = true
    · cases hr : rstripWs r with
      | nil =>
        have h1 : rstripWs (c :: r) = [] := by
          show (match rstripWs r with
                | [] => if pyWs c = true then [] else [c]
                | d :: t => c :: d :: t) = []
          rw [hr, if_pos hc]
        have hallr : ∀ x ∈ r, pyWs x = true := rstrip_eq_nil_iff.mp hr
        rw [h1, List.dropWhile_cons, if_pos hc, List.dropWhile_eq_nil_iff.mpr hallr]
        rfl
      | cons d t =>
        have h1 : rstripWs (c :: r) = c :: rstripWs r := rstrip_cons_eq (Or.inr (by simp [hr]))
        have h2 : (c :: r).dropWhile pyWs = r.dropWhile pyWs := by
          rw [List.dropWhile_cons, if_pos hc]
        have h3 : (c :: rstripWs r).dropWhile pyWs = (rstripWs r).dropWhile pyWs := by
          rw [List.dropWhile_cons, if_pos hc]
        rw [h1, h2, h3, ih]
    · have hcf : pyWs c = false := Bool.eq_false_iff.mpr hc
      have h1 : rstripWs (c :: r) = c :: rstripWs r := rstrip_cons_eq (Or.inl hcf)
      rw [h1, List.dropWhile_cons, if_neg (by simp [hcf]),
          List.dropWhile_cons, if_neg (by simp [hcf])]
      exact h1.symm

theorem rstrip_idem : ∀ (Y : List Char), rstripWs (rstripWs Y) = rstripWs Y := by
  intro Y
  induction Y with
  | nil => rfl
  | cons c r ih =>
    cases hr : rstripWs r with
    | nil =>
      by_cases hc : pyWs c = true
      · have h1 : rstripWs (c :: r) = [] := by
          show (match rstripWs r with
                | [] => if pyWs c = true then [] else [c]
                | d :: t => c :: d :: t) = []
          rw [hr, if_pos hc]
        rw [h1]
        rfl
      · have h1 : rstripWs (c :: r) = [c] := by
          show (match rstripWs r with
                | [] => if pyWs c = true then [] else [c]
                | d :: t => c :: d :: t) = [c]
          rw [hr, if_neg hc]
        rw [h1]
        show (match rstripWs ([] : List Char) with
              | [] => if pyWs c = true then [] else [c]
              | d :: t => c :: d :: t) = [c]
        rw [if_neg hc]
        rfl
    | cons d t =>
      have h1 : rstripWs (c :: r) = c :: rstripWs r := rstrip_cons_eq (Or.inr (by simp [hr]))
      rw [h1, rstrip_cons_eq (Or.inr (by rw [ih]; simp [hr])), ih]

theorem pyStrip_rstrip (Y : List Char) : pyStrip (rstripWs Y) = pyStrip Y := by
  unfold pyStrip
  rw [rstrip_dropWhile_comm, rstrip_idem]

theorem clean_wrap (t : List Char) :
    cleanFencesL (wrapData t) = pyStrip (subFences (t.dropWhile pyWs)) := by
  unfold cleanFencesL
  rw [sub_wrap, pyStrip_rstrip]

theorem clean_junk (t : List Char) :
    ∃ J, (∀ c ∈ J, junkChar c)
      ∧ cleanFencesL t = pyStrip (J ++ subFences (t.dropWhile pyWs)) := by
  obtain ⟨J, hJ, hK⟩ := sub_junk_decomp t.length t le_rfl
  exact ⟨J, hJ, by unfold cleanFencesL; rw [hK]⟩

/-! ### The bracket slice ignores junk prefixes and whitespace edges -/

/-- The `find`/`rfind`/slice step shared by the array and object
pipelines: `none` when a bracket is missing. -/
def bracketSlice (o c : Char) (l : List Char) : Option (List Char) :=
  match firstIdxOf o l, lastIdxOf c l with
  | some s, some e => some (pySlice l s e)
  | _, _ => none

theorem firstIdxOf_none_iff {o : Char} : ∀ {l : List Char},
    (firstIdxOf o l = none ↔ ∀ ch ∈ l, ¬ ch = o) := by
  intro l
  induction l with
  | nil => simp [firstIdxOf]
  | cons d r ih =>
    show (if d = o then some 0 else (firstIdxOf o r).map Nat.succ) = none ↔ _
    by_cases hd : d = o
    · rw [if_pos hd]
      simp [List.forall_mem_cons, hd]
    · rw [if_neg hd]
      simp only [Option.map_eq_none', List.forall_mem_cons, ih]
      exact ⟨fun h => ⟨hd, h⟩, fun h => h.2⟩

theorem firstIdxOf_append_shift {o : Char} : ∀ {J : List Char} (X : List Char),
    (∀ ch ∈ J, ¬ ch = o) →
    firstIdxOf o (J ++ X) = (firstIdxOf o X).map (fun k => J.length + k) := by
  intro J
  induction J with
  | nil =>
    intro X _
    simp only [List.nil_append]
    cases hx : firstIdxOf o X with
    | none => rfl
    | some k => simp
  | cons j J2 ih =>
    intro X h
    have hj : ¬ j = o := h j (List.mem_cons_self _ _)
    show (if j = o then some 0 else (firstIdxOf o (J2 ++ X)).map Nat.succ) = _
    rw [if_neg hj, ih X (fun ch hc => h ch (List.mem_cons_of_mem _ hc))]
    cases firstIdxOf o X with
    | none => rfl
    | some k =>
      simp only [Option.map_some']
      congr 1
      simp [List.length_cons]
      omega

theorem firstIdxOf_append_left {o : Char} : ∀ {A : List Char} (B : List Char) {k : Nat},
    firstIdxOf o A = some k → firstIdxOf o (A ++ B) = some k := by
  intro A
  induction A with
  | nil => intro B k h; exact Option.noConfusion h
  | cons d r ih =>
    intro B k h
    show (if d = o then some 0 else (firstIdxOf o (r ++ B)).map Nat.succ) = some k
    by_cases hd : d = o
    · rw [if_pos hd]
      rw [show firstIdxOf o (d :: r) = (if d = o then some 0 else (firstIdxOf o r).map Nat.succ)
            from rfl, if_pos hd] at h
      exact h
    · rw [if_neg hd]
      rw [show firstIdxOf o (d :: r) = (if d = o then some 0 else (firstIdxOf o r).map Nat.succ)
            from rfl, if_neg hd] at h
      cases hx : firstIdxOf o r with
      | none => rw [hx] at h; exact Option.noConfusion h
      | some k2 =>
        rw [hx] at h
        rw [ih B hx]
        exact h

theorem lastIdxOf_lt_length {c : Char} {l : List Char} {e : Nat}
    (h : lastIdxOf c l = some e) : e < l.length := by
  unfold lastIdxOf at h
  cases hx : firstIdxOf c l.reverse with
  | none => rw [hx] at h; exact Option.noConfusion h
  | some k =>
    rw [hx] at h
    injection h with h2
    have hk : k < l.length := by
      have := (firstIdxOf_lt_length_and_get _ hx).1
      simpa using this
    omega

theorem lastIdxOf_append_shift {c : Char} {J : List Char} (X : List Char)
    (h : ∀ ch ∈ J, ¬ ch = c) :
    lastIdxOf c (J ++ X) = (lastIdxOf c X).map (fun k => J.length + k) := by
  unfold lastIdxOf
  rw [List.reverse_append]
  cases hk : firstIdxOf c X.reverse with
  | some k =>
    rw [firstIdxOf_append_left J.reverse hk]
    have hlt : k < X.length := by
      have := (firstIdxOf_lt_length_and_get _ hk).1
      simpa using this
    simp only [Option.map_some']
    congr 1
    simp [List.length_append]
    omega
  | none =>
    have hnone : firstIdxOf c (X.reverse ++ J.reverse) = none := by
      rw [firstIdxOf_none_iff]
      intro ch hch
      rcases List.mem_append.mp hch with hch | hch
      · exact firstIdxOf_none_iff.mp hk ch hch
      · exact h ch (List.mem_reverse.mp hch)
    rw [hnone]
    rfl

theorem pySlice_append_shift (J X : List Char) (s e : Nat) :
    pySlice (J ++ X) (J.length + s) (J.length + e) = pySlice X s e := by
  unfold pySlice
  rw [List.drop_append]
  congr 1
  omega

theorem bracketSlice_junk_front {o c : Char} {J : List Char} (X : List Char)
    (ho : ∀ ch ∈ J, ¬ ch = o) (hc : ∀ ch ∈ J, ¬ ch = c) :
    bracketSlice o c (J ++ X) = bracketSlice o c X := by
  unfold bracketSlice
  rw [firstIdxOf_append_shift X ho, lastIdxOf_append_shift X hc]
  cases firstIdxOf o X with
  | none => rfl
  | some s =>
    cases lastIdxOf c X with
    | none => rfl
    | some e =>
      show some (pySlice (J ++ X) (J.length + s) (J.length + e)) = some (pySlice X s e)
      rw [pySlice_append_shift]

theorem bracketSlice_ws_suffix {o c : Char} (ho : pyWs o = false) (hc : pyWs c = false)
    (A W : List Char) (hW : ∀ ch ∈ W, pyWs ch = true) :
    bracketSlice o c (A ++ W) = bracketSlice o c A := by
  have hWo : ∀ ch ∈ W, ¬ ch = o := fun ch h1 h2 => by
    rw [h2] at h1
    rw [hW o (h2 ▸ h1)] at ho
    exact Bool.noConfusion ho
  have hWc : ∀ ch ∈ W, ¬ ch = c := fun ch h1 h2 => by
    rw [h2] at h1
    rw [hW c (h2 ▸ h1)] at hc
    exact Bool.noConfusion hc
  unfold bracketSlice
  cases hf : firstIdxOf o A with
  | none =>
    have hfn : firstIdxOf o (A ++ W) = none := by
      rw [firstIdxOf_none_iff]
      intro ch hch
      rcases List.mem_append.mp hch with hch | hch
      · exact firstIdxOf_none_iff.mp hf ch hch
      · exact hWo ch hch
    rw [hfn]
  | some s =>
    have hfs : firstIdxOf o (A ++ W) = some s := firstIdxOf_append_left W hf
    cases hl : lastIdxOf c A with
    | none =>
      have hln : lastIdxOf c (A ++ W) = none := by
        unfold lastIdxOf at hl ⊢
        rw [List.reverse_append]
        have hl2 : firstIdxOf c A.reverse = none := by
          cases hx : firstIdxOf c A.reverse with
          | none => rfl
          | some k => rw [hx] at hl; exact Option.noConfusion hl
        have hnone : firstIdxOf c (W.reverse ++ A.reverse) = none := by
          rw [firstIdxOf_none_iff]
          intro ch hch
          rcases List.mem_append.mp hch with hch | hch
          · exact hWc ch (List.mem_reverse.mp hch)
          · exact firstIdxOf_none_iff.mp hl2 ch hch
        rw [hnone]
      rw [hfs, hln]
    | some e =>
      have he_lt : e < A.length := lastIdxOf_lt_length hl
      have hls : lastIdxOf c (A ++ W) = some e := by
        unfold lastIdxOf at hl ⊢
        rw [List.reverse_append]
        cases hx : firstIdxOf c A.reverse with
        | none => rw [hx] at hl; exact Option.noConfusion hl
        | some k =>
          rw [hx] at hl
          injection hl with hl2
          have hklt : k < A.length := by
            have := (firstIdxOf_lt_length_and_get _ hx).1
            simpa using this
          have hfw : firstIdxOf c (W.reverse ++ A.reverse)
              = (firstIdxOf c A.reverse).map (fun k => W.reverse.length + k) := by
            apply firstIdxOf_append_shift
            intro ch hch
            exact hWc ch (List.mem_reverse.mp hch)
          rw [hfw, hx]
          simp only [Option.map_some']
          congr 1
          simp [List.length_append]
          omega
      rw [hfs, hls]
      show some (pySlice (A ++ W) s e) = some (pySlice A s e)
      congr 1
      have hs_lt : s < A.length := by
        have := (firstIdxOf_lt_length_and_get _ hf).1
        simpa using this
      unfold pySlice
      rw [List.drop_append_of_le_length (le_of_lt hs_lt),
          List.take_append_of_le_length (by simp [List.length_drop]; omega)]

theorem rstrip_decomp : ∀ (L : List Char),
    ∃ W, (∀ ch ∈ W, pyWs ch = true) ∧ L = rstripWs L ++ W := by
  intro L
  induction L with
  | nil => exact ⟨[], by simp, rfl⟩
  | cons c r ih =>
    obtain ⟨W, hW, hd⟩ := ih
    cases hr : rstripWs r with
    | nil =>
      by_cases hcws : pyWs c = true
      · refine ⟨c :: r, ?_, ?_⟩
        · exact List.forall_mem_cons.mpr ⟨hcws, rstrip_eq_nil_iff.mp hr⟩
        · have h1 : rstripWs (c :: r) = [] := by
            show (match rstripWs r with
                  | [] => if pyWs c = true then [] else [c]
                  | d :: t => c :: d :: t) = []
            rw [hr, if_pos hcws]
          rw [h1]
          rfl
      · refine ⟨W, hW, ?_⟩
        have h1 : rstripWs (c :: r) = [c] := by
          show (match rstripWs r with
                | [] => if pyWs c = true then [] else [c]
                | d :: t => c :: d :: t) = [c]
          rw [hr, if_neg hcws]
        rw [h1]
        rw [hr] at hd
        simp at hd
        rw [hd]
        rfl
    | cons d t =>
      refine ⟨W, hW, ?_⟩
      rw [rstrip_cons_eq (Or.inr (by simp [hr])), List.cons_append, ← hd]

theorem bracketSlice_strip {o c : Char} (ho : pyWs o = false) (hc : pyWs c = false)
    (Y : List Char) : bracketSlice o c (pyStrip Y) = bracketSlice o c Y := by
  have hwsne : ∀ (d : Char), pyWs d = false → ∀ ch : Char, pyWs ch = true → ¬ ch = d :=
    fun d hd ch h1 h2 => by
      rw [h2] at h1
      rw [h1] at hd
      exact Bool.noConfusion hd
  have h1 : bracketSlice o c Y = bracketSlice o c (Y.dropWhile pyWs) := by
    conv =>
      left
      rw [← List.takeWhile_append_dropWhile pyWs Y]
    exact bracketSlice_junk_front _
      (fun ch hch => hwsne o ho ch (List.mem_takeWhile_imp hch))
      (fun ch hch => hwsne c hc ch (List.mem_takeWhile_imp hch))
  obtain ⟨W, hW, hdec⟩ := rstrip_decomp (Y.dropWhile pyWs)
  have h2 : bracketSlice o c (Y.dropWhile pyWs)
      = bracketSlice o c (rstripWs (Y.dropWhile pyWs)) := by
    conv =>
      left
      rw [hdec]
    exact bracketSlice_ws_suffix ho hc _ _ hW
  rw [h1, h2]
  rfl

/-! ### The rescue regex searches ignore junk prefixes and whitespace edges -/

theorem pyWs_ne {ch b : Char} (h1 : pyWs ch = true) (hb : pyWs b = false) : ¬ ch = b :=
  fun h2 => by
    rw [h2] at h1
    rw [h1] at hb
    exact Bool.noConfusion hb

theorem tryValid_none_of_head {c : Char} (r : List Char) (hc : ¬ c = '"') :
    tryValid (c :: r) = none := by
  by_cases hp : litValid.isPrefixOf (c :: r) = true
  · exfalso
    have h1 : ('"' :: ("valid\":").data).isPrefixOf (c :: r) = true := hp
    exact hc (isPrefixOf_cons_head h1).symm
  · unfold tryValid
    rw [if_neg hp]

theorem trySkill_none_of_head {c : Char} (r : List Char) (hc : ¬ c = '"') :
    trySkill (c :: r) = none := by
  by_cases hp : litSkill.isPrefixOf (c :: r) = true
  · exfalso
    have h1 : ('"' :: ("skill\":").data).isPrefixOf (c :: r) = true := hp
    exact hc (isPrefixOf_cons_head h1).symm
  · unfold trySkill
    rw [if_neg hp]

theorem searchValid_junk_front : ∀ {J : List Char} (X : List Char),
    (∀ ch ∈ J, ¬ ch = '"') → searchValid (J ++ X) = searchValid X := by
  intro J
  induction J with
  | nil => intro X _; rfl
  | cons j J2 ih =>
    intro X h
    show (match tryValid (j :: (J2 ++ X)) with
          | some d => some d
          | none => searchValid (J2 ++ X)) = searchValid X
    rw [tryValid_none_of_head _ (h j (List.mem_cons_self _ _))]
    exact ih X (fun ch hc => h ch (List.mem_cons_of_mem _ hc))

theorem searchSkill_junk_front : ∀ {J : List Char} (X : List Char),
    (∀ ch ∈ J, ¬ ch = '"') → searchSkill (J ++ X) = searchSkill X := by
  intro J
  induction J with
  | nil => intro X _; rfl
  | cons j J2 ih =>
    intro X h
    show (match trySkill (j :: (J2 ++ X)) with
          | some cap => some cap
          | none => searchSkill (J2 ++ X)) = searchSkill X
    rw [trySkill_none_of_head _ (h j (List.mem_cons_self _ _))]
    exact ih X (fun ch hc => h ch (List.mem_cons_of_mem _ hc))

theorem takeWhile_stop {p : Char → Bool} {q : Char} (hq : p q = false) :
    ∀ (u v : List Char), (∀ x ∈ u, p x = true) → (u ++ q :: v).takeWhile p = u := by
  intro u
  induction u with
  | nil =>
    intro v _
    show (q :: v).takeWhile p = []
    rw [List.takeWhile_cons, if_neg (by simp [hq])]
  | cons a u2 ih =>
    intro v h
    have ha : p a = true := h a (List.mem_cons_self _ _)
    rw [List.cons_append, List.takeWhile_cons, if_pos ha,
        ih v (fun x hx => h x (List.mem_cons_of_mem _ hx))]

theorem dropWhile_stop {p : Char → Bool} {q : Char} (hq : p q = false) :
    ∀ (u v : List Char), (∀ x ∈ u, p x = true) → (u ++ q :: v).dropWhile p = q :: v := by
  intro u
  induction u with
  | nil =>
    intro v _
    show (q :: v).dropWhile p = q :: v
    rw [List.dropWhile_cons, if_neg (by simp [hq])]
  | cons a u2 ih =>
    intro v h
    have ha : p a = true := h a (List.mem_cons_self _ _)
    rw [List.cons_append, List.dropWhile_cons, if_pos ha]
    exact ih v (fun x hx => h x (List.mem_cons_of_mem _ hx))

theorem tryValid_append_ws {W : List Char} (hW : ∀ ch ∈ W, pyWs ch = true) (u : List Char) :
    tryValid (u ++ W) = tryValid u := by
  cases W with
  | nil => rw [List.append_nil]
  | cons w0 W2 =>
    by_cases hp : litValid.isPrefixOf u = true
    · unfold tryValid
      rw [if_pos hp, if_pos (isPrefixOf_append_right hp)]
      have h8 : 8 ≤ u.length := isPrefixOf_length hp
      rw [List.drop_append_of_le_length h8, List.dropWhile_append]
      by_cases he : ((u.drop 8).dropWhile pyWs).isEmpty = true
      · have he2 : (u.drop 8).dropWhile pyWs = [] := by simpa using he
        rw [if_pos he, List.dropWhile_eq_nil_iff.mpr hW, he2]
      · rw [if_neg he]
        cases hx : (u.drop 8).dropWhile pyWs with
        | nil => rw [hx] at he; simp at he
        | cons c rest => rfl
    · have hlit : ∀ a ∈ litValid, pyWs a = false := by decide
      have hp2 : ¬ litValid.isPrefixOf (u ++ w0 :: W2) = true := fun hcon =>
        hp (isPrefixOf_append_head
          (fun a ha hae => by
            rw [← hae] at hW
            have h1 : pyWs a = true := hW a (List.mem_cons_self _ _)
            have h2 : pyWs a = false := hlit a ha
            rw [h1] at h2
            exact Bool.noConfusion h2)
          hcon)
      unfold tryValid
      rw [if_neg hp2, if_neg hp]

theorem trySkill_append_ws {W : List Char} (hW : ∀ ch ∈ W, pyWs ch = true) (u : List Char) :
    trySkill (u ++ W) = trySkill u := by
  cases W with
  | nil => rw [List.append_nil]
  | cons w0 W2 =>
    by_cases hp : litSkill.isPrefixOf u = true
    · unfold trySkill
      rw [if_pos hp, if_pos (isPrefixOf_append_right hp)]
      have h8 : 8 ≤ u.length := isPrefixOf_length hp
      rw [List.drop_append_of_le_length h8, List.dropWhile_append]
      by_cases he : ((u.drop 8).dropWhile pyWs).isEmpty = true
      · have he2 : (u.drop 8).dropWhile pyWs = [] := by simpa using he
        rw [if_pos he, List.dropWhile_eq_nil_iff.mpr hW, he2]
      · rw [if_neg he]
        cases hx : (u.drop 8).dropWhile pyWs with
        | nil => rw [hx] at he; simp at he
        | cons c rest =>
          show (if c = '"' then
                  if ((rest ++ w0 :: W2).takeWhile notQuote).isEmpty = true then none
                  else if ((rest ++ w0 :: W2).drop
                        ((rest ++ w0 :: W2).takeWhile notQuote).length).head? = some '"'
                       then some ((rest ++ w0 :: W2).takeWhile notQuote) else none
                else none)
              = (if c = '"' then
                  if (rest.takeWhile notQuote).isEmpty = true then none
                  else if (rest.drop (rest.takeWhile notQuote).length).head? = some '"'
                       then some (rest.takeWhile notQuote) else none
                else none)
          by_cases hq : c = '"'
          · rw [if_pos hq, if_pos hq]
            have hqf : notQuote ('"') = false := by decide
            by_cases hrq : '"' ∈ rest
            · have hne : ¬ rest.dropWhile notQuote = [] := by
                intro hcon
                have h3 := List.dropWhile_eq_nil_iff.mp hcon ('"') hrq
                rw [hqf] at h3
                exact Bool.noConfusion h3
              obtain ⟨B, hqB⟩ : ∃ B, rest.dropWhile notQuote = '"' :: B := by
                cases hx2 : rest.dropWhile notQuote with
                | nil => exact absurd hx2 hne
                | cons q B =>
                  have hh : (rest.dropWhile notQuote).head? = some q := by rw [hx2]; rfl
                  have hqn : notQuote q = false := dropWhile_head_not hh
                  have hqe : q = '"' := by simpa [notQuote] using hqn
                  exact ⟨B, by rw [hqe]⟩
              have hAall : ∀ x ∈ rest.takeWhile notQuote, notQuote x = true :=
                fun x hx2 => List.mem_takeWhile_imp hx2
              have hsplit : rest = rest.takeWhile notQuote ++ '"' :: B := by
                conv =>
                  left
                  rw [← List.takeWhile_append_dropWhile notQuote rest]
                rw [hqB]
              generalize hA : rest.takeWhile notQuote = A at hsplit hAall
              rw [hsplit]
              have t1 : ((A ++ '"' :: B) ++ w0 :: W2).takeWhile notQuote = A := by
                rw [List.append_assoc, List.cons_append]
                exact takeWhile_stop hqf A _ hAall
              have t2 : ((A ++ '"' :: B) ++ w0 :: W2).drop A.length
                  = '"' :: (B ++ w0 :: W2) := by
                rw [List.append_assoc, List.cons_append]
                exact List.drop_left A _
              have t4 : (A ++ '"' :: B).drop A.length = '"' :: B :=
                List.drop_left A ('"' :: B)
              rw [t1, t2, t4]
              simp
            · have hall : ∀ x ∈ rest, notQuote x = true := by
                intro x hx2
                have hxq : ¬ x = '"' := fun heq => hrq (heq ▸ hx2)
                simp [notQuote, hxq]
              have hallW : ∀ x ∈ rest ++ w0 :: W2, notQuote x = true := by
                intro x hx2
                rcases List.mem_append.mp hx2 with h | h
                · exact hall x h
                · have hwx : pyWs x = true := hW x h
                  have hxq := pyWs_ne hwx (show pyWs ('"') = false by decide)
                  simp [notQuote, hxq]
              have t1 : (rest ++ w0 :: W2).takeWhile notQuote = rest ++ w0 :: W2 :=
                List.takeWhile_eq_self_iff.mpr hallW
              have t3 : rest.takeWhile notQuote = rest :=
                List.takeWhile_eq_self_iff.mpr hall
              rw [t1, t3, List.drop_length, List.drop_length]
              simp
          · rw [if_neg hq, if_neg hq]
    · have hlit : ∀ a ∈ litSkill, pyWs a = false := by decide
      have hp2 : ¬ litSkill.isPrefixOf (u ++ w0 :: W2) = true := fun hcon =>
        hp (isPrefixOf_append_head
          (fun a ha hae => by
            rw [← hae] at hW
            have h1 : pyWs a = true := hW a (List.mem_cons_self _ _)
            have h2 : pyWs a = false := hlit a ha
            rw [h1] at h2
            exact Bool.noConfusion h2)
          hcon)
      unfold trySkill
      rw [if_neg hp2, if_neg hp]

theorem searchValid_append_ws {W : List Char} (hW : ∀ ch ∈ W, pyWs ch = true) :
    ∀ (A : List Char), searchValid (A ++ W) = searchValid A := by
  intro A
  induction A with
  | nil =>
    have h2 : searchValid (W ++ []) = searchValid [] :=
      searchValid_junk_front []
        (fun ch hch => pyWs_ne (hW ch hch) (show pyWs ('"') = false by decide))
    rw [List.append_nil] at h2
    show searchValid W = searchValid []
    exact h2
  | cons a A2 ih =>
    show (match tryValid ((a :: A2) ++ W) with
          | some d => some d
          | none => searchValid (A2 ++ W))
        = (match tryValid (a :: A2) with
          | some d => some d
          | none => searchValid A2)
    rw [tryValid_append_ws hW (a :: A2)]
    cases tryValid (a :: A2) with
    | some d => rfl
    | none => exact ih

theorem searchSkill_append_ws {W : List Char} (hW : ∀ ch ∈ W, pyWs ch = true) :
    ∀ (A : List Char), searchSkill (A ++ W) = searchSkill A := by
  intro A
  induction A with
  | nil =>
    have h2 : searchSkill (W ++ []) = searchSkill [] :=
      searchSkill_junk_front []
        (fun ch hch => pyWs_ne (hW ch hch) (show pyWs ('"') = false by decide))
    rw [List.append_nil] at h2
    show searchSkill W = searchSkill []
    exact h2
  | cons a A2 ih =>
    show (match trySkill ((a :: A2) ++ W) with
          | some cap => some cap
          | none => searchSkill (A2 ++ W))
        = (match trySkill (a :: A2) with
          | some cap => some cap
          | none => searchSkill A2)
    rw [trySkill_append_ws hW (a :: A2)]
    cases trySkill (a :: A2) with
    | some cap => rfl
    | none => exact ih

theorem searchValid_strip (Y : List Char) :
    searchValid (pyStrip Y) = searchValid Y := by
  have h1 : searchValid Y = searchValid (Y.dropWhile pyWs) := by
    conv =>
      left
      rw [← List.takeWhile_append_dropWhile pyWs Y]
    exact searchValid_junk_front _
      (fun ch hch =>
        pyWs_ne (List.mem_takeWhile_imp hch) (show pyWs ('"') = false by decide))
  obtain ⟨W, hW, hdec⟩ := rstrip_decomp (Y.dropWhile pyWs)
  have h2 : searchValid (Y.dropWhile pyWs)
      = searchValid (rstripWs (Y.dropWhile pyWs)) := by
    conv =>
      left
      rw [hdec]
    exact searchValid_append_ws hW _
  rw [h1, h2]
  rfl

theorem searchSkill_strip (Y : List Char) :
    searchSkill (pyStrip Y) = searchSkill Y := by
  have h1 : searchSkill Y = searchSkill (Y.dropWhile pyWs) := by
    conv =>
      left
      rw [← List.takeWhile_append_dropWhile pyWs Y]
    exact searchSkill_junk_front _
      (fun ch hch =>
        pyWs_ne (List.mem_takeWhile_imp hch) (show pyWs ('"') = false by decide))
  obtain ⟨W, hW, hdec⟩ := rstrip_decomp (Y.dropWhile pyWs)
  have h2 : searchSkill (Y.dropWhile pyWs)
      = searchSkill (rstripWs (Y.dropWhile pyWs)) := by
    conv =>
      left
      rw [hdec]
    exact searchSkill_append_ws hW _
  rw [h1, h2]
  rfl

/-! ### Assembling the fence-wrap invariance of the slicing and regex
pipelines -/

theorem junkChar_ne {ch b : Char} (h : junkChar ch)
    (hb : pyWs b = false ∧ ¬ b = 'j' ∧ ¬ b = 's' ∧ ¬ b = 'o' ∧ ¬ b = 'n') :
    ¬ ch = b := by
  intro he
  subst he
  rcases h with h | h | h | h | h
  · rw [h] at hb
    exact Bool.noConfusion hb.1
  · exact hb.2.1 h
  · exact hb.2.2.1 h
  · exact hb.2.2.2.1 h
  · exact hb.2.2.2.2 h

theorem bracketSlice_wrap_eq {o c : Char}
    (hno : pyWs o = false ∧ ¬ o = 'j' ∧ ¬ o = 's' ∧ ¬ o = 'o' ∧ ¬ o = 'n')
    (hnc : pyWs c = false ∧ ¬ c = 'j' ∧ ¬ c = 's' ∧ ¬ c = 'o' ∧ ¬ c = 'n')
    (t : List Char) :
    bracketSlice o c (cleanFencesL (wrapData t)) = bracketSlice o c (cleanFencesL t) := by
  obtain ⟨J, hJ, hK⟩ := clean_junk t
  rw [clean_wrap, hK, bracketSlice_strip hno.1 hnc.1, bracketSlice_strip hno.1 hnc.1]
  exact (bracketSlice_junk_front _
    (fun ch hch => junkChar_ne (hJ ch hch) hno)
    (fun ch hch => junkChar_ne (hJ ch hch) hnc)).symm

theorem searchValid_wrap_eq (t : List Char) :
    searchValid (cleanFencesL (wrapData t)) = searchValid (cleanFencesL t) := by
  obtain ⟨J, hJ, hK⟩ := clean_junk t
  rw [clean_wrap, hK, searchValid_strip, searchValid_strip]
  exact (searchValid_junk_front _
    (fun ch hch => junkChar_ne (hJ ch hch) (by decide))).symm

theorem searchSkill_wrap_eq (t : List Char) :
    searchSkill (cleanFencesL (wrapData t)) = searchSkill (cleanFencesL t) := by
  obtain ⟨J, hJ, hK⟩ := clean_junk t
  rw [clean_wrap, hK, searchSkill_strip, searchSkill_strip]
  exact (searchSkill_junk_front _
    (fun ch hch => junkChar_ne (hJ ch hch) (by decide))).symm

theorem upload_resume_parse_eq (raw : String) :
    upload_resume_parse raw
      = (match bracketSlice '[' ']' (cleanFencesL raw.data) with
         | some sl => jsonLoads sl
         | none => Except.ok (JValue.arr [])) := by
  unfold upload_resume_parse bracketSlice
  cases firstIdxOf '[' (cleanFencesL raw.data) with
  | none => rfl
  | some s =>
    cases lastIdxOf ']' (cleanFencesL raw.data) with
    | none => rfl
    | some e => rfl

theorem market_normalize_eq (raw : String) :
    market_normalize raw
      = pyTry
          (match bracketSlice lbrace rbrace (cleanFencesL raw.data) with
           | some sl =>
             (match jsonLoads sl with
              | Except.ok v => Except.ok (some v)
              | Except.error err => Except.error err)
           | none => Except.ok none)
          (Except.ok none) := by
  unfold market_normalize bracketSlice
  cases firstIdxOf lbrace (cleanFencesL raw.data) with
  | none => rfl
  | some s =>
    cases lastIdxOf rbrace (cleanFencesL raw.data) with
    | none => rfl
    | some e => rfl

theorem resume_wrap_eq (t : String) :
    upload_resume_normalize (wrapJson t) = upload_resume_normalize t := by
  have hb : bracketSlice '[' ']' (cleanFencesL ((wrapJson t).data))
      = bracketSlice '[' ']' (cleanFencesL t.data) := by
    rw [wrapJson_data]
    exact bracketSlice_wrap_eq (by decide) (by decide) t.data
  unfold upload_resume_normalize
  rw [upload_resume_parse_eq, upload_resume_parse_eq, hb]

theorem market_wrap_eq (t : String) :
    market_normalize (wrapJson t) = market_normalize t := by
  have hb : bracketSlice lbrace rbrace (cleanFencesL ((wrapJson t).data))
      = bracketSlice lbrace rbrace (cleanFencesL t.data) := by
    rw [wrapJson_data]
    exact bracketSlice_wrap_eq (by decide) (by decide) t.data
  rw [market_normalize_eq, market_normalize_eq, hb]

theorem cert_wrap_eq (t : String) :
    upload_certificate_normalize (wrapJson t) = upload_certificate_normalize t := by
  have hv : searchValid (cleanFencesL ((wrapJson t).data))
      = searchValid (cleanFencesL t.data) := by
    rw [wrapJson_data]
    exact searchValid_wrap_eq t.data
  have hs : searchSkill (cleanFencesL ((wrapJson t).data))
      = searchSkill (cleanFencesL t.data) := by
    rw [wrapJson_data]
    exact searchSkill_wrap_eq t.data
  unfold upload_certificate_normalize certSkillStr
  rw [hv, hs]

/-- C6 (amended): wrapping any text in a ```json fence normalizes
identically to the unwrapped text for the pipelines that slice the
outermost bracket span before parsing (resume roles, market analysis)
and for the certificate field-regex path; the whole-cleaned-text
json.loads pipelines are excluded, as `c6_counterexample` shows they can
diverge when the text itself starts with whitespace and a ```json
fence. -/
theorem c6_fence_wrap_invariant (t : String) :
    upload_resume_normalize (wrapJson t) = upload_resume_normalize t
    ∧ market_normalize (wrapJson t) = market_normalize t
    ∧ upload_certificate_normalize (wrapJson t) = upload_certificate_normalize t :=
  ⟨resume_wrap_eq t, market_wrap_eq t, cert_wrap_eq t⟩

end CodeCatalyst
